import Mathlib

/-!
Shallow embedding of the CPU balancer and device helpers of `lxd/devices.go`
(the device lifecycle / CPU scheduling subsystem).

Conventions used throughout:
* Go `int` is modelled as `Int`; `strconv.Atoi` / `strconv.ParseInt` perform
  their documented range checks explicitly.
* Go maps read through a possibly-missing key (`map[string]string`) are
  modelled as total functions returning `""` for absent keys, or as
  association lists when the iteration/insertion behaviour matters.
* Effects (syscalls, `exec.Command`, the SQL transaction) are modelled as
  oracle parameters; the code's control flow over their results is translated
  verbatim.
* A Go panic (out-of-range slice index) is modelled as `Option.none`.
-/

namespace DevicesGo

/-- Value of a string of decimal digit characters; `none` if any character is
not a decimal digit.  Helper for `atoi`. -/
def decDigitsVal (cs : List Char) : Option Nat :=
  cs.foldl (fun acc c =>
    match acc with
    | none => none
    | some n => if c.isDigit then some (n * 10 + (c.toNat - 48)) else none)
    (some 0)

/-- Go `strconv.Atoi` (`= strconv.ParseInt(s, 10, 0)` with 64-bit `int`):
an optional leading sign followed by at least one decimal digit, with the
64-bit range check; anything else is an error (`none`). -/
def atoi (s : String) : Option Int :=
  match s.data with
  | [] => none
  | c :: rest =>
    let sgn : Bool × List Char :=
      if c = '-' then (true, rest)
      else if c = '+' then (false, rest)
      else (false, c :: rest)
    match sgn.2, decDigitsVal sgn.2 with
    | [], _ => none
    | _ :: _, none => none
    | _ :: _, some n =>
      let v : Int := if sgn.1 then -(n : Int) else (n : Int)
      if -(2 ^ 63) ≤ v ∧ v ≤ 2 ^ 63 - 1 then some v else none

/-- The local `min` closure defined at the top of `deviceTaskBalance`. -/
def goMin (x y : Int) : Int := if x < y then x else y

/-- Character-level splitter.  Both separators the balancer uses (`,` and
`-`) are single characters, for which Go `strings.Split` is exactly a
split on that character. -/
def splitCharList (sep : Char) : List Char → List (List Char)
  | [] => [[]]
  | c :: rest =>
    let r := splitCharList sep rest
    if c = sep then [] :: r
    else
      match r with
      | [] => [[c]]
      | h :: t => (c :: h) :: t

/-- Go `strings.Split(s, sep)` for a one-character separator. -/
def splitChar (sep : Char) (s : String) : List String :=
  (splitCharList sep s.data).map String.mk

/-- Go `strings.SplitN(s, sep, 2)` for a one-character separator: the part
before the first separator and the (unsplit) remainder. -/
def splitN2 (s : String) (sep : Char) : List String :=
  match splitChar sep s with
  | [] => []
  | [x] => [x]
  | x :: rest => [x, String.intercalate (String.mk [sep]) rest]

/-- Byte-lexicographic strict string comparison, as Go `<` on strings (all
strings compared here are ASCII digit strings, where Go byte order and
character order coincide); structurally on the character lists. -/
def charsLt : List Char → List Char → Bool
  | [], [] => false
  | [], _ :: _ => true
  | _ :: _, [] => false
  | a :: as, b :: bs =>
    if a < b then true
    else if b < a then false
    else charsLt as bs

/-- A container as seen by `deviceTaskBalance`: its name, the
`limits.cpu` key of its expanded configuration (`none` when the key is
absent), and whether it is running. -/
structure Ctr where
  name : String
  limitsCpu : Option String
  running : Bool
  deriving DecidableEq, Repr

/-- One entry of the `deviceTaskCPUs` usage slice (`deviceTaskCPU`): CPU id,
its decimal string, and the usage counter (held by pointer in Go; each entry
owns its own counter, so it is modelled as a plain field). -/
structure CpuCtr where
  id : Int
  strId : String
  count : Int
  deriving DecidableEq, Repr

/-- The effective `limits.cpu` string of a container: the configured value,
defaulting to the online-CPU count when the key is absent or empty
(`if !ok || cpu == "" { cpu = fmt.Sprintf("%d", len(cpus)) }`). -/
def effLimitStr (cpus : List Int) (c : Ctr) : String :=
  match c.limitsCpu with
  | none => toString cpus.length
  | some s => if s = "" then toString cpus.length else s

/-- The list `low, low+1, ..., high` (`for i := low; i <= high; i++`). -/
def intRange (low high : Int) : List Int :=
  (List.range (high + 1 - low).toNat).map (fun k => low + (k : Int))

/-- CPU ids contributed by one comma-separated chunk of a pinning
expression: a `low-high` range or a single id, each parsed with `Atoi`;
malformed chunks contribute nothing, and ids not in `cpus`
(`shared.IntInSlice`) are dropped. -/
def chunkFixedIds (cpus : List Int) (chunk : String) : List Int :=
  if chunk.data.contains '-' then
    match splitN2 chunk '-' with
    | [f0, f1] =>
      match atoi f0, atoi f1 with
      | some low, some high => (intRange low high).filter (fun i => cpus.contains i)
      | _, _ => []
    | _ => []
  else
    match atoi chunk with
    | some nr => if cpus.contains nr then [nr] else []
    | none => []

/-- All (online) CPU ids referenced by a pinning expression, in reference
order, duplicates kept — the sequence of ids appended to `fixedContainers`
for one container. -/
def fixedIdsOf (cpus : List Int) (limit : String) : List Int :=
  (splitChar ',' limit).flatMap (chunkFixedIds cpus)

/-- All CPU ids a pinning expression refers to, ignoring whether they are
online: the same parse as `chunkFixedIds` without the `IntInSlice`
membership test.  This is the spec-side notion of "referenced CPU id" used
to state that offline/nonexistent ids are excluded. -/
def chunkReferencedIds (chunk : String) : List Int :=
  if chunk.data.contains '-' then
    match splitN2 chunk '-' with
    | [f0, f1] =>
      match atoi f0, atoi f1 with
      | some low, some high => intRange low high
      | _, _ => []
    | _ => []
  else
    match atoi chunk with
    | some nr => [nr]
    | none => []

/-- All CPU ids referenced by a pinning expression (well-formed entries
only), ignoring online-ness. -/
def referencedIdsOf (limit : String) : List Int :=
  (splitChar ',' limit).flatMap chunkReferencedIds

/-- Append `v` to the list held under key `k` of an association list,
creating the key at the end if absent — Go's
`m[k] = append(m[k], v)` on a map, with keys kept in first-insertion
order. -/
def upsert (fa : List (Int × List Nat)) (k : Int) (v : Nat) : List (Int × List Nat) :=
  match fa with
  | [] => [(k, [v])]
  | (k', vs) :: rest =>
    if k' = k then (k', vs ++ [v]) :: rest else (k', vs) :: upsert rest k v

/-- Classification loop of `deviceTaskBalance`: walk the containers (indexed
by position, standing in for the distinct loaded container objects), skip
non-running ones, and put each remaining one either in the balanced list
(its limit parses as an integer, capped at the CPU count) or spread its
pinning expression into the `fixedContainers` association. -/
def classifyGo (cpus : List Int) :
    Nat → List Ctr → (List (Nat × Int) × List (Int × List Nat)) →
    (List (Nat × Int) × List (Int × List Nat))
  | _, [], acc => acc
  | i, c :: rest, acc =>
    if c.running then
      match atoi (effLimitStr cpus c) with
      | some n =>
        classifyGo cpus (i + 1) rest (acc.1 ++ [(i, goMin n cpus.length)], acc.2)
      | none =>
        classifyGo cpus (i + 1) rest
          (acc.1, (fixedIdsOf cpus (effLimitStr cpus c)).foldl (fun fa id => upsert fa id i) acc.2)
    else classifyGo cpus (i + 1) rest acc

/-- Classification of the whole container list: balanced containers (index,
capped count) in list order, and the fixed-pin association
`fixedContainers : cpu id → container indexes`. -/
def classify (cpus : List Int) (ctrs : List Ctr) :
    List (Nat × Int) × List (Int × List Nat) :=
  classifyGo cpus 0 ctrs ([], [])

/-- Pinning accumulator: container index to the list of CPU-id strings
appended so far (`pinning := map[container][]string{}`). -/
abbrev Pinning := List (Nat × List String)

/-- Go `pinning[ctn] = append(pinning[ctn], id)`. -/
def pinAppend (p : Pinning) (k : Nat) (id : String) : Pinning :=
  match p with
  | [] => [(k, [id])]
  | (k', ids) :: rest =>
    if k' = k then (k', ids ++ [id]) :: rest else (k', ids) :: pinAppend rest k id

/-- Append several ids for one container, in order. -/
def pinAppendMany (p : Pinning) (k : Nat) (ids : List String) : Pinning :=
  ids.foldl (fun p id => pinAppend p k id) p

/-- The assigned CPU-id strings of container index `k`. -/
def pinningOf (p : Pinning) (k : Nat) : List String :=
  (List.lookup k p).getD []

/-- Go slice indexing `usage[i]` with an `int` index: `none` models the
out-of-range panic. -/
def goIndex (l : List CpuCtr) (i : Int) : Option CpuCtr :=
  if 0 ≤ i then l.get? i.toNat else none

/-- Increment the usage counter at position `i` by `n` (the fixed loop runs
`*usage[cpu].count += 1` once per pinned container). -/
def bumpAt (l : List CpuCtr) (i : Nat) (n : Nat) : List CpuCtr :=
  match l.get? i with
  | some e => l.set i { e with count := e.count + (n : Int) }
  | none => l

/-- One iteration of the fixed-assignment loop
(`for cpu, ctns := range fixedContainers`), for key `kv.1` with container
indexes `kv.2`: read `usage[cpu]` (panic modelled as `none`), append its
`strId` to each container's pinning and bump the counter once per
container. -/
def applyFixedOne (acc : List CpuCtr × Pinning) (kv : Int × List Nat) :
    Option (List CpuCtr × Pinning) :=
  match goIndex acc.1 kv.1 with
  | none => none
  | some e =>
    some (bumpAt acc.1 kv.1.toNat kv.2.length,
          kv.2.foldl (fun p j => pinAppend p j e.strId) acc.2)

/-- The whole fixed-assignment loop. -/
def applyFixed (fa : List (Int × List Nat)) (u : List CpuCtr) (p : Pinning) :
    Option (List CpuCtr × Pinning) :=
  fa.foldlM applyFixedOne (u, p)

/-- Stable insertion of a usage entry: placed before the first strictly
greater count, i.e. after all entries with an equal or smaller count
(`Less(i, j) = *c[i].count < *c[j].count`). -/
def insertByCount (a : CpuCtr) : List CpuCtr → List CpuCtr
  | [] => [a]
  | b :: rest => if a.count < b.count then a :: b :: rest else b :: insertByCount a rest

/-- Stable insertion sort on usage counts: the functional equivalent of the
`insertionSort` run by Go's `sort.Sort` (a stable sort's output is uniquely
determined by the input order and the comparator). -/
def insertionSortCount (l : List CpuCtr) : List CpuCtr :=
  l.foldl (fun acc a => insertByCount a acc) []

/-- The gap-6 Shell pass Go's `quickSort` performs before `insertionSort`
on spans of at most 12 elements
(`for i := a + 6; i < b; i++ { if data.Less(i, i-6) { data.Swap(i, i-6) } }`). -/
def shellPass6 (l : List CpuCtr) : List CpuCtr :=
  (List.range l.length).foldl (fun acc i =>
    if i < 6 then acc
    else
      match acc.get? i, acc.get? (i - 6) with
      | some a, some b =>
        if a.count < b.count then (acc.set i b).set (i - 6) a else acc
      | _, _ => acc) l

/-- Go `sort.Sort(usage)` for `deviceTaskCPUs`.  For slices of at most 12
elements (every concrete evaluation below) Go's `quickSort` does exactly a
gap-6 Shell pass followed by an insertion sort, which this is.  For longer
slices Go pivots first; the result is then still a permutation ordered by
usage count, merely with a different arrangement of equal-count entries,
and no theorem below about non-concrete inputs depends on more than the
ordered-permutation property. -/
def sortSortCPUs (l : List CpuCtr) : List CpuCtr :=
  insertionSortCount (shellPass6 l)

/-- The inner loop of the load-balancing phase: walk the (sorted) usage
slice, stop early when the remaining request `cnt` is exactly `0`,
otherwise assign the entry's `strId` and bump its counter. -/
def allocate : Int → List CpuCtr → List String × List CpuCtr
  | _, [] => ([], [])
  | cnt, c :: rest =>
    if cnt = 0 then ([], c :: rest)
    else
      let p := allocate (cnt - 1) rest
      (c.strId :: p.1, { c with count := c.count + 1 } :: p.2)

/-- One balanced container's turn: re-sort the usage slice, then allocate. -/
def balanceStep (st : List CpuCtr × Pinning) (e : Nat × Int) : List CpuCtr × Pinning :=
  let u := sortSortCPUs st.1
  let p := allocate e.2 u
  (p.2, pinAppendMany st.2 e.1 p.1)

/-- The computational core of `deviceTaskBalance`, from the online CPU list
(in `/sys/bus/cpu/devices` enumeration order) and the container list to the
final usage counters and per-container pinning; `none` models the panic of
`usage[cpu]` when a fixed pin's CPU id is not a valid position of the usage
slice. -/
def deviceTaskBalanceCore (cpus : List Int) (ctrs : List Ctr) :
    Option (List CpuCtr × Pinning) :=
  let usage0 : List CpuCtr := cpus.map (fun id => ⟨id, toString id, 0⟩)
  let cls := classify cpus ctrs
  match applyFixed cls.2 usage0 [] with
  | none => none
  | some up => some (cls.1.foldl balanceStep up)

/-- Insertion into a nondecreasing list of strings (byte-lexicographic
order, as Go compares strings; all strings here are ASCII digit strings,
for which Lean's character order agrees with Go's byte order). -/
def insertStr (s : String) : List String → List String
  | [] => [s]
  | b :: rest => if charsLt s.data b.data then s :: b :: rest else b :: insertStr s rest

/-- Go `sort.Strings(set)`: the unique nondecreasing (lexicographic)
arrangement of the multiset, here by insertion sort. -/
def sortStringsGo (l : List String) : List String :=
  l.foldl (fun acc s => insertStr s acc) []

/-- The final loop of `deviceTaskBalance`: for every container that
received at least one CPU, the value written to its `cpuset.cpus` cgroup
file — the pinning list sorted by `sort.Strings` and comma-joined. -/
def balanceOutputs (cpus : List Int) (ctrs : List Ctr) :
    Option (List (Nat × String)) :=
  (deviceTaskBalanceCore cpus ctrs).map fun st =>
    st.2.map fun kv => (kv.1, String.intercalate "," (sortStringsGo kv.2))

/-- A `shared.Device` (`map[string]string`): total function returning `""`
for absent keys, matching Go's zero-value map read. -/
abbrev Device := String → String

/-- Value of a string of octal digit characters (`0`-`7`); `none`
otherwise.  Helper for `parseOct32`. -/
def octDigitsVal (cs : List Char) : Option Nat :=
  cs.foldl (fun acc c =>
    match acc with
    | none => none
    | some n =>
      if 48 ≤ c.toNat ∧ c.toNat ≤ 55 then some (n * 8 + (c.toNat - 48)) else none)
    (some 0)

/-- Go `strconv.ParseInt(s, 8, 32)`: optional sign, at least one octal
digit, 32-bit range check. -/
def parseOct32 (s : String) : Option Int :=
  match s.data with
  | [] => none
  | c :: rest =>
    let sgn : Bool × List Char :=
      if c = '-' then (true, rest)
      else if c = '+' then (false, rest)
      else (false, c :: rest)
    match sgn.2, octDigitsVal sgn.2 with
    | [], _ => none
    | _ :: _, none => none
    | _ :: _, some n =>
      let v : Int := if sgn.1 then -(n : Int) else (n : Int)
      if -(2 ^ 31) ≤ v ∧ v ≤ 2 ^ 31 - 1 then some v else none

/-- `devModeOct`: the octal device mode, defaulting to `0660` for the empty
string; a parse failure is an error (`none`). -/
def devModeOct (strmode : String) : Option Int :=
  if strmode = "" then some 0o660 else parseOct32 strmode

/-- `modeHasRead`: any of the octal read bits (`0444`) set (two's complement
bitwise and, as in Go). -/
def modeHasRead (mode : Int) : Bool :=
  Int.land mode 0o444 != 0

/-- `modeHasWrite`: any of the octal write bits (`0222`) set. -/
def modeHasWrite (mode : Int) : Bool :=
  Int.land mode 0o222 != 0

/-- `devModeString`: `"m"`, plus `"r"` when a read bit is set, plus `"w"`
when a write bit is set. -/
def devModeString (strmode : String) : Option String :=
  (devModeOct strmode).map fun i =>
    ("m" ++ (if modeHasRead i then "r" else "")) ++ (if modeHasWrite i then "w" else "")

/-- `deviceCgroupInfo`: the cgroup `devices.allow` directive for a unix
device.  `getDevOracle` stands for `getDev` (a `stat(2)` of the device
node, major = rdev/256, minor = rdev%256), which is a syscall and is
modelled as an oracle on the resolved path; `filepath.Join("/", p)` is
modelled as prefixing `/` (the path cleaning `Join` also performs is
absorbed into the oracle).  Result `none` models every error return. -/
def deviceCgroupInfo (getDevOracle : String → Option (Int × Int)) (dev : Device) :
    Option String :=
  match (if dev "type" = "unix-char" then some "c"
         else if dev "type" = "unix-block" then some "b"
         else none) with
  | none => none
  | some t =>
    let mm : Option (Int × Int) :=
      if dev "major" = "" ∧ dev "minor" = "" then
        let devname := if (dev "path").startsWith "/" then dev "path" else "/" ++ dev "path"
        getDevOracle devname
      else if dev "major" ≠ "" ∧ dev "minor" ≠ "" then
        match atoi (dev "major"), atoi (dev "minor") with
        | some ma, some mi => some (ma, mi)
        | _, _ => none
      else none
    match mm with
    | none => none
    | some (ma, mi) =>
      match devModeString (dev "mode") with
      | none => none
      | some mode =>
        some ((((t ++ " ") ++ toString ma) ++ ":" ++ toString mi) ++ " " ++ mode)

/-- `validDeviceConfig(t, k, v)`: the per-type attribute whitelist check;
the Go `switch` statements are written as equality chains. -/
def validDeviceConfig (t k v : String) : Bool :=
  if k = "type" then false
  else if t = "unix-char" ∨ t = "unix-block" then
    if k = "path" then true
    else if k = "major" then true
    else if k = "minor" then true
    else if k = "uid" then true
    else if k = "gid" then true
    else if k = "mode" then true
    else false
  else if t = "nic" then
    if k = "parent" then true
    else if k = "name" then true
    else if k = "hwaddr" then true
    else if k = "mtu" then true
    else if k = "nictype" then ["physical", "bridged", "p2p", "macvlan"].contains v
    else false
  else if t = "disk" then
    if k = "path" then true
    else if k = "source" then true
    else if k = "readonly" ∨ k = "optional" then true
    else false
  else false

/-- The fixed attribute whitelist of each device type, as the spec states
it (the set of keys `validDeviceConfig` can accept for that type). -/
def deviceWhitelist (t : String) : List String :=
  if t = "unix-char" ∨ t = "unix-block" then ["path", "major", "minor", "uid", "gid", "mode"]
  else if t = "nic" then ["parent", "name", "hwaddr", "mtu", "nictype"]
  else if t = "disk" then ["path", "source", "readonly", "optional"]
  else []

/-- External commands issued by the nic hot-add path (`exec.Command` /
`AttachInterface`). -/
inductive NicCmd where
  | ipLinkAddVeth (n1 n2 : String)
  | brctlAddif (bridge dev : String)
  | ipLinkAddMacvlan (n1 parent : String)
  | ipLinkSetAddr (dev hw : String)
  | ipLinkSetUp (dev : String)
  | ipLinkDel (dev : String)
  | attachInterface (tmp name : String)
  deriving DecidableEq, Repr

/-- Environment of one nic hot-add: the success oracle for external
commands, the MAC generator (`generateMacAddr` lives outside this file;
modelled as an oracle), the `nextUnusedNic` result, the persisted
`volatile.<name>.hwaddr` configuration value, the two database statement
outcomes, and the two random `tempNic` names. -/
structure NicEnv where
  run : NicCmd → Bool
  genMac : String → Option String
  nextNic : String
  configHwaddr : String
  txOk : Bool
  txUpdateOk : Bool
  n1 : String
  n2 : String

/-- The device map after `setupNic`'s in-place fill
`if d["name"] == "" { d["name"] = nextUnusedNic(c) }`. -/
def nameFill (env : NicEnv) (d : Device) : Device :=
  if d "name" = "" then (fun k => if k = "name" then env.nextNic else d k) else d

/-- The MAC address `setupNic` uses: the persisted configuration value, or
a generated one (from the device's template, else the default template). -/
def resolvedHwOf (env : NicEnv) (d : Device) : Option String :=
  if env.configHwaddr = "" then
    if d "hwaddr" ≠ "" then env.genMac (d "hwaddr") else env.genMac "00:16:3e:xx:xx:xx"
  else some env.configHwaddr

/-- Tail of `setupNic` after the device link exists: set the MAC address,
bring the link up; each failure runs `removeInterface(dev)` and errors. -/
def finishNic (env : NicEnv) (tr : List NicCmd) (dev : String) (hw : String) (d' : Device) :
    List NicCmd × Option (String × Device) :=
  let addr := NicCmd.ipLinkSetAddr dev hw
  if ¬ env.run addr then (tr ++ [addr, NicCmd.ipLinkDel dev], none)
  else
    let up := NicCmd.ipLinkSetUp dev
    if ¬ env.run up then (tr ++ [addr, up, NicCmd.ipLinkDel dev], none)
    else (tr ++ [addr, up], some (dev, d'))

/-- `setupNic`: type checks, name fill, MAC resolution and persistence,
host-side link creation per nictype, then `finishNic`.  Returns the trace
of issued external commands and, on success, the host-side device name and
the updated device map (`none` models every error return). -/
def setupNic (env : NicEnv) (d : Device) : List NicCmd × Option (String × Device) :=
  if d "nictype" = "" then ([], none)
  else if ¬ (["bridged", "physical", "p2p", "macvlan"].contains (d "nictype")) then ([], none)
  else if (["bridged", "physical", "macvlan"].contains (d "nictype")) ∧ d "parent" = "" then
    ([], none)
  else
    -- the in-place fill only touches the "name" key, so all other key
    -- reads below use `d` unchanged, as in the source:
    let d' := nameFill env d
    match resolvedHwOf env d with
    | none => ([], none)
    | some hw =>
      if env.configHwaddr = "" ∧ hw ≠ d "hwaddr" ∧ ¬ env.txOk then ([], none)
      else
        if ["bridged", "p2p"].contains (d "nictype") then
          let c1 := NicCmd.ipLinkAddVeth env.n1 env.n2
          if ¬ env.run c1 then ([c1], none)
          else
            -- the `d["nictype"] == "bridge"` comparison in the source can
            -- never hold (nictype was checked against the four valid
            -- values), so the brctl branch is dead; kept verbatim:
            if d "nictype" = "bridge" then
              let c2 := NicCmd.brctlAddif (d "parent") env.n1
              if ¬ env.run c2 then ([c1, c2, NicCmd.ipLinkDel env.n2], none)
              else finishNic env [c1, c2] env.n2 hw d'
            else finishNic env [c1] env.n2 hw d'
        else if d "nictype" = "physical" then
          finishNic env [] (d "parent") hw d'
        else if d "nictype" = "macvlan" then
          let c1 := NicCmd.ipLinkAddMacvlan env.n1 (d "parent")
          if ¬ env.run c1 then ([c1], none)
          else finishNic env [c1] env.n1 hw d'
        else ([], none)

/-- The `nic` arm of the addition phase of `devicesApplyDeltaLive`:
`setupNic`, then `AttachInterface` (move into the container's network
namespace; on failure the temporary link is removed), then `txUpdateNic`.
Returns the command trace and whether the addition succeeded. -/
def applyNicAddLive (env : NicEnv) (d : Device) : List NicCmd × Bool :=
  match setupNic env d with
  | (tr, none) => (tr, false)
  | (tr, some (tmpName, dd)) =>
    let at' := NicCmd.attachInterface tmpName (dd "name")
    if ¬ env.run at' then (tr ++ [at', NicCmd.ipLinkDel tmpName], false)
    else if ¬ env.txUpdateOk then (tr ++ [at'], false)
    else (tr ++ [at'], true)

/-- The host-side link `setupNic` creates for a given nictype (`n2` for a
veth pair, `n1` for macvlan; `none` for physical, which creates nothing). -/
def createdLinkOf (env : NicEnv) (d : Device) : Option String :=
  if ["bridged", "p2p"].contains (d "nictype") then some env.n2
  else if d "nictype" = "macvlan" then some env.n1
  else none

/-- The link-creation command `setupNic` issues for a given nictype. -/
def createCmdOf (env : NicEnv) (d : Device) : Option NicCmd :=
  if ["bridged", "p2p"].contains (d "nictype") then
    some (NicCmd.ipLinkAddVeth env.n1 env.n2)
  else if d "nictype" = "macvlan" then
    some (NicCmd.ipLinkAddMacvlan env.n1 (d "parent"))
  else none

/-- A command oracle where only `ip link set dev ... up` fails. -/
def nicUpFails : NicCmd → Bool
  | NicCmd.ipLinkSetUp _ => false
  | _ => true

/-- A concrete nic hot-add environment: no persisted MAC, MAC generation
succeeds, both database statements succeed, and `nicUpFails` as the
command oracle. -/
def nicEnvW : NicEnv :=
  ⟨nicUpFails, fun _ => some "00:16:3e:aa:bb:cc", "eth0", "", true, true, "va", "vb"⟩

/-- A concrete bridged nic device map. -/
def nicDevW : Device := fun k =>
  if k = "nictype" then "bridged" else if k = "parent" then "br0" else ""

/-- Number of assignments the allocation loop performs: every remaining
entry for a negative request (the `count == 0` stop is never reached),
otherwise the requested count bounded by the slice length. -/
def allocCount (cnt : Int) (n : Nat) : Nat :=
  if cnt < 0 then n else min cnt.toNat n

/-- One usage-counter increment (`*cpu.count += 1`). -/
def bump (e : CpuCtr) : CpuCtr :=
  { e with count := e.count + 1 }

/-- Direct (non-accumulator) description of the balanced half of the
classification: (container index, capped request) in container order. -/
def balListGo (cpus : List Int) : Nat → List Ctr → List (Nat × Int)
  | _, [] => []
  | i, c :: rest =>
    (if c.running then
      match atoi (effLimitStr cpus c) with
      | some n => [(i, goMin n cpus.length)]
      | none => []
     else []) ++ balListGo cpus (i + 1) rest

/-- Direct description of the fixed half of the classification: the flat
sequence of (cpu id, container index) insertions performed on
`fixedContainers`, in program order. -/
def flatFixedGo (cpus : List Int) : Nat → List Ctr → List (Int × Nat)
  | _, [] => []
  | i, c :: rest =>
    (if c.running then
      match atoi (effLimitStr cpus c) with
      | some _ => []
      | none => (fixedIdsOf cpus (effLimitStr cpus c)).map (fun id => (id, i))
     else []) ++ flatFixedGo cpus (i + 1) rest

/-- Flattening of the `fixedContainers` association back into (cpu id,
container index) pairs. -/
def listFlat (fa : List (Int × List Nat)) : List (Int × Nat) :=
  fa.flatMap fun kv => kv.2.map fun v => (kv.1, v)

/-- The online CPU list of the common topology: ids `0, 1, ..., n-1`, with
every id equal to its position in the enumeration. -/
def idCpus (n : Nat) : List Int :=
  (List.range n).map Int.ofNat

/-- The `strId` of the usage entry at CPU-id index `k`, if it exists. -/
def strIdAt (u : List CpuCtr) (k : Int) : Option String :=
  (goIndex u k).map CpuCtr.strId

/-- Invariant of the usage slice along a balance pass: as a multiset, its
(id, strId) pairs are exactly the online CPUs with their decimal strings
(only counters ever change). -/
def UsageInv (cpus : List Int) (u : List CpuCtr) : Prop :=
  (u.map fun e => (e.id, e.strId)).Perm (cpus.map fun id => (id, toString id))

/-- All usage counters are `m` or `m + 1`. -/
def TwoVal (m : Int) (u : List CpuCtr) : Prop :=
  ∀ e ∈ u, e.count = m ∨ e.count = m + 1

/-! ## Sorting lemmas -/

theorem insertByCount_perm (a : CpuCtr) (l : List CpuCtr) :
    (insertByCount a l).Perm (a :: l) := by
  induction l with
  | nil => exact List.Perm.refl _
  | cons b rest ih =>
    simp only [insertByCount]
    split
    · exact List.Perm.refl _
    · exact ((ih.cons b).trans (List.Perm.swap a b rest))

theorem mem_insertByCount {a : CpuCtr} {l : List CpuCtr} {x : CpuCtr}
    (hx : x ∈ insertByCount a l) : x = a ∨ x ∈ l := by
  have := (insertByCount_perm a l).mem_iff.mp hx
  simpa using this

theorem insertByCount_sorted (a : CpuCtr) (l : List CpuCtr)
    (h : l.Pairwise (fun x y => x.count ≤ y.count)) :
    (insertByCount a l).Pairwise (fun x y => x.count ≤ y.count) := by
  induction l with
  | nil => simp [insertByCount]
  | cons b rest ih =>
    rcases List.pairwise_cons.mp h with ⟨hb, hrest⟩
    simp only [insertByCount]
    split
    · rename_i hab
      refine List.pairwise_cons.mpr ⟨?_, h⟩
      intro y hy
      rcases List.mem_cons.mp hy with rfl | hy
      · exact le_of_lt hab
      · exact le_trans (le_of_lt hab) (hb y hy)
    · rename_i hab
      refine List.pairwise_cons.mpr ⟨?_, ih hrest⟩
      intro y hy
      rcases mem_insertByCount hy with rfl | hy
      · exact le_of_not_lt hab
      · exact hb y hy

theorem foldl_insertByCount_perm (l : List CpuCtr) :
    ∀ acc : List CpuCtr, (l.foldl (fun acc a => insertByCount a acc) acc).Perm (l ++ acc) := by
  induction l with
  | nil => intro acc; simp
  | cons a rest ih =>
    intro acc
    have h1 := ih (insertByCount a acc)
    have h2 : (rest ++ insertByCount a acc).Perm (rest ++ (a :: acc)) :=
      List.Perm.append_left rest (insertByCount_perm a acc)
    have h3 : (rest ++ (a :: acc)).Perm (a :: (rest ++ acc)) := List.perm_middle
    simpa using (h1.trans (h2.trans h3))

theorem insertionSortCount_perm (l : List CpuCtr) :
    (insertionSortCount l).Perm l := by
  have := foldl_insertByCount_perm l []
  simpa [insertionSortCount] using this

theorem insertionSortCount_sorted (l : List CpuCtr) :
    (insertionSortCount l).Pairwise (fun x y => x.count ≤ y.count) := by
  have main : ∀ (l acc : List CpuCtr),
      acc.Pairwise (fun x y => x.count ≤ y.count) →
      (l.foldl (fun acc a => insertByCount a acc) acc).Pairwise
        (fun x y => x.count ≤ y.count) := by
    intro l
    induction l with
    | nil => intro acc h; simpa using h
    | cons a rest ih =>
      intro acc h
      exact ih _ (insertByCount_sorted a acc h)
  simpa [insertionSortCount] using main l [] (by simp)

theorem cons_set_perm {α : Type} :
    ∀ (l : List α) (m : Nat) (b c : α), l.get? m = some b →
      (b :: l.set m c).Perm (c :: l) := by
  intro l
  induction l with
  | nil => intro m b c h; simp at h
  | cons x rest ih =>
    intro m b c h
    cases m with
    | zero =>
      simp only [List.get?] at h
      injection h with h; subst h
      simpa [List.set] using List.Perm.swap c x rest
    | succ mm =>
      simp only [List.get?] at h
      have h1 := ih mm b c h
      have h2 : (b :: x :: rest.set mm c).Perm (x :: b :: rest.set mm c) :=
        List.Perm.swap x b _
      have h3 : (x :: b :: rest.set mm c).Perm (x :: c :: rest) := h1.cons x
      have h4 : (x :: c :: rest).Perm (c :: x :: rest) := List.Perm.swap c x rest
      simpa [List.set] using (h2.trans (h3.trans h4))

theorem swap_set_perm {α : Type} :
    ∀ (l : List α) (i j : Nat) (a b : α), i ≠ j →
      l.get? i = some a → l.get? j = some b →
      ((l.set i b).set j a).Perm l := by
  intro l
  induction l with
  | nil => intro i j a b hij ha hb; simp at ha
  | cons x rest ih =>
    intro i j a b hij ha hb
    cases i with
    | zero =>
      simp only [List.get?] at ha
      injection ha with ha; subst ha
      cases j with
      | zero => exact absurd rfl hij
      | succ jj =>
        simp only [List.get?] at hb
        simpa [List.set] using cons_set_perm rest jj b x hb
    | succ ii =>
      cases j with
      | zero =>
        simp only [List.get?] at hb
        injection hb with hb; subst hb
        simp only [List.get?] at ha
        simpa [List.set] using cons_set_perm rest ii a x ha
      | succ jj =>
        simp only [List.get?] at ha hb
        have : ii ≠ jj := fun h => hij (by simp [h])
        simpa [List.set] using (ih ii jj a b this ha hb).cons x

theorem foldl_perm_of_step {α β : Type} (f : List α → β → List α)
    (H : ∀ acc b, (f acc b).Perm acc) :
    ∀ (idx : List β) (acc : List α), (idx.foldl f acc).Perm acc := by
  intro idx
  induction idx with
  | nil => intro acc; exact List.Perm.refl _
  | cons b rest ih =>
    intro acc
    exact (ih (f acc b)).trans (H acc b)

theorem shellPass6_perm (l : List CpuCtr) : (shellPass6 l).Perm l := by
  unfold shellPass6
  apply foldl_perm_of_step
  intro acc i
  split
  · exact List.Perm.refl _
  · rename_i hi
    cases ha : acc.get? i with
    | none => simp [ha]
    | some a =>
      cases hb : acc.get? (i - 6) with
      | none => simp [ha, hb]
      | some b =>
        simp only [ha, hb]
        split
        · exact swap_set_perm acc i (i - 6) a b (by omega) ha hb
        · exact List.Perm.refl _

theorem sortSortCPUs_perm (l : List CpuCtr) : (sortSortCPUs l).Perm l :=
  (insertionSortCount_perm _).trans (shellPass6_perm l)

theorem sortSortCPUs_sorted (l : List CpuCtr) :
    (sortSortCPUs l).Pairwise (fun x y => x.count ≤ y.count) :=
  insertionSortCount_sorted _

theorem charsLt_iff : ∀ (a b : List Char), charsLt a b = true ↔ a < b := by
  intro a
  induction a with
  | nil =>
    intro b
    cases b with
    | nil =>
      simp only [charsLt, Bool.false_eq_true, false_iff]
      intro h
      cases h
    | cons c cs =>
      simp only [charsLt, true_iff]
      exact List.Lex.nil
  | cons x xs ih =>
    intro b
    cases b with
    | nil =>
      simp only [charsLt, Bool.false_eq_true, false_iff]
      intro h
      cases h
    | cons c cs =>
      by_cases h1 : x < c
      · simp only [charsLt, if_pos h1, true_iff]
        exact List.Lex.rel h1
      · by_cases h2 : c < x
        · simp only [charsLt, if_neg h1, if_pos h2, Bool.false_eq_true, false_iff]
          intro h
          cases h with
          | cons htl => exact absurd h2 (lt_irrefl _)
          | rel hr => exact h1 hr
        · have hxc : x = c := le_antisymm (le_of_not_lt h2) (le_of_not_lt h1)
          subst hxc
          simp only [charsLt, if_neg h1, if_neg h2]
          rw [ih cs]
          constructor
          · intro h
            exact List.Lex.cons h
          · intro h
            cases h with
            | cons htl => exact htl
            | rel hr => exact absurd hr (lt_irrefl _)

theorem charsLt_strings (s t : String) : charsLt s.data t.data = true ↔ s < t :=
  (charsLt_iff s.data t.data).trans String.lt_iff_toList_lt.symm

theorem insertStr_perm (s : String) (l : List String) :
    (insertStr s l).Perm (s :: l) := by
  induction l with
  | nil => exact List.Perm.refl _
  | cons b rest ih =>
    simp only [insertStr]
    split
    · exact List.Perm.refl _
    · exact ((ih.cons b).trans (List.Perm.swap s b rest))

theorem mem_insertStr {s : String} {l : List String} {x : String}
    (hx : x ∈ insertStr s l) : x = s ∨ x ∈ l := by
  have := (insertStr_perm s l).mem_iff.mp hx
  simpa using this

theorem insertStr_sorted (s : String) (l : List String)
    (h : l.Pairwise (· ≤ ·)) : (insertStr s l).Pairwise (· ≤ ·) := by
  induction l with
  | nil => simp [insertStr]
  | cons b rest ih =>
    rcases List.pairwise_cons.mp h with ⟨hb, hrest⟩
    simp only [insertStr]
    split
    · rename_i hsb
      have hsb' : s < b := (charsLt_strings s b).mp hsb
      refine List.pairwise_cons.mpr ⟨?_, h⟩
      intro y hy
      rcases List.mem_cons.mp hy with rfl | hy
      · exact le_of_lt hsb'
      · exact le_trans (le_of_lt hsb') (hb y hy)
    · rename_i hsb
      have hsb' : ¬ s < b := fun hlt => hsb ((charsLt_strings s b).mpr hlt)
      refine List.pairwise_cons.mpr ⟨?_, ih hrest⟩
      intro y hy
      rcases mem_insertStr hy with rfl | hy
      · exact le_of_not_lt hsb'
      · exact hb y hy

theorem sortStringsGo_perm (l : List String) : (sortStringsGo l).Perm l := by
  have main : ∀ (l acc : List String),
      (l.foldl (fun acc s => insertStr s acc) acc).Perm (l ++ acc) := by
    intro l
    induction l with
    | nil => intro acc; simp
    | cons a rest ih =>
      intro acc
      have h1 := ih (insertStr a acc)
      have h2 : (rest ++ insertStr a acc).Perm (rest ++ (a :: acc)) :=
        List.Perm.append_left rest (insertStr_perm a acc)
      have h3 : (rest ++ (a :: acc)).Perm (a :: (rest ++ acc)) := List.perm_middle
      simpa using (h1.trans (h2.trans h3))
  simpa [sortStringsGo] using main l []

theorem sortStringsGo_sorted (l : List String) :
    (sortStringsGo l).Pairwise (· ≤ ·) := by
  have main : ∀ (l acc : List String), acc.Pairwise (· ≤ ·) →
      (l.foldl (fun acc s => insertStr s acc) acc).Pairwise (· ≤ ·) := by
    intro l
    induction l with
    | nil => intro acc h; simpa using h
    | cons a rest ih =>
      intro acc h
      exact ih _ (insertStr_sorted a acc h)
  simpa [sortStringsGo] using main l [] (by simp)

/-! ## Allocation lemmas -/

theorem allocCount_le (cnt : Int) (n : Nat) : allocCount cnt n ≤ n := by
  unfold allocCount
  split <;> omega

theorem allocCount_succ (cnt : Int) (n : Nat) (h : cnt ≠ 0) :
    allocCount cnt (n + 1) = allocCount (cnt - 1) n + 1 := by
  unfold allocCount
  split <;> split <;> omega

theorem allocate_eq (cnt : Int) (u : List CpuCtr) :
    allocate cnt u =
      ((u.take (allocCount cnt u.length)).map CpuCtr.strId,
       (u.take (allocCount cnt u.length)).map bump ++ u.drop (allocCount cnt u.length)) := by
  induction u generalizing cnt with
  | nil => simp [allocate]
  | cons c rest ih =>
    by_cases h : cnt = 0
    · subst h
      simp [allocate, allocCount]
    · have hk := allocCount_succ cnt rest.length h
      simp only [allocate, if_neg h, ih (cnt - 1), List.length_cons, hk,
        List.take_succ_cons, List.map_cons, List.drop_succ_cons, bump, List.cons_append]

theorem allocate_fst_length (cnt : Int) (u : List CpuCtr) :
    (allocate cnt u).1.length = allocCount cnt u.length := by
  rw [allocate_eq]
  simp only [List.length_map, List.length_take]
  exact min_eq_left (allocCount_le cnt u.length)

theorem map_id_bump (l : List CpuCtr) :
    (l.map bump).map CpuCtr.id = l.map CpuCtr.id := by
  induction l with
  | nil => rfl
  | cons a rest ih => simp [bump, ih]

theorem allocate_snd_map_id (cnt : Int) (u : List CpuCtr) :
    (allocate cnt u).2.map CpuCtr.id = u.map CpuCtr.id := by
  rw [allocate_eq]
  simp only [List.map_append, map_id_bump]
  rw [← List.map_append, List.take_append_drop]

theorem map_strId_bump (l : List CpuCtr) :
    (l.map bump).map CpuCtr.strId = l.map CpuCtr.strId := by
  induction l with
  | nil => rfl
  | cons a rest ih => simp [bump, ih]

theorem allocate_snd_map_strId (cnt : Int) (u : List CpuCtr) :
    (allocate cnt u).2.map CpuCtr.strId = u.map CpuCtr.strId := by
  rw [allocate_eq]
  simp only [List.map_append, map_strId_bump]
  rw [← List.map_append, List.take_append_drop]

theorem map_idStr_bump (l : List CpuCtr) :
    (l.map bump).map (fun e => (e.id, e.strId)) = l.map (fun e => (e.id, e.strId)) := by
  induction l with
  | nil => rfl
  | cons a rest ih => simp [bump, ih]

theorem allocate_snd_map_idStr (cnt : Int) (u : List CpuCtr) :
    (allocate cnt u).2.map (fun e => (e.id, e.strId)) = u.map (fun e => (e.id, e.strId)) := by
  rw [allocate_eq]
  simp only [List.map_append, map_idStr_bump]
  rw [← List.map_append, List.take_append_drop]

/-! ## Pinning association lemmas -/

theorem pinningOf_nil (k : Nat) : pinningOf [] k = [] := rfl

theorem lookup_cons_self {β : Type} (k : Nat) (v : β) (rest : List (Nat × β)) :
    List.lookup k ((k, v) :: rest) = some v := by
  simp [List.lookup]

theorem lookup_cons_ne {β : Type} (k k' : Nat) (v : β) (rest : List (Nat × β)) (h : k' ≠ k) :
    List.lookup k' ((k, v) :: rest) = List.lookup k' rest := by
  have hb : (k' == k) = false := by simp [h]
  simp [List.lookup, hb]

theorem pinAppend_cons_same (k : Nat) (ids : List String) (rest : Pinning) (id : String) :
    pinAppend ((k, ids) :: rest) k id = (k, ids ++ [id]) :: rest := by
  simp [pinAppend]

theorem pinAppend_cons_ne (k k' : Nat) (ids : List String) (rest : Pinning) (id : String)
    (h : k' ≠ k) : pinAppend ((k', ids) :: rest) k id = (k', ids) :: pinAppend rest k id := by
  simp [pinAppend, h]

theorem pinningOf_pinAppend_same (p : Pinning) (k : Nat) (id : String) :
    pinningOf (pinAppend p k id) k = pinningOf p k ++ [id] := by
  induction p with
  | nil => simp [pinAppend, pinningOf, lookup_cons_self]
  | cons kv rest ih =>
    rcases kv with ⟨k', ids⟩
    by_cases h : k' = k
    · subst h
      rw [pinAppend_cons_same]
      unfold pinningOf
      rw [lookup_cons_self, lookup_cons_self]
      rfl
    · rw [pinAppend_cons_ne _ _ _ _ _ h]
      unfold pinningOf at ih ⊢
      rw [lookup_cons_ne _ _ _ _ (Ne.symm h), lookup_cons_ne _ _ _ _ (Ne.symm h)]
      exact ih

theorem pinningOf_pinAppend_ne (p : Pinning) (k k' : Nat) (id : String) (h : k' ≠ k) :
    pinningOf (pinAppend p k id) k' = pinningOf p k' := by
  induction p with
  | nil =>
    unfold pinningOf
    simp only [pinAppend]
    rw [lookup_cons_ne _ _ _ _ h]
  | cons kv rest ih =>
    rcases kv with ⟨k0, ids⟩
    by_cases h0 : k0 = k
    · subst h0
      rw [pinAppend_cons_same]
      unfold pinningOf
      rw [lookup_cons_ne _ _ _ _ h, lookup_cons_ne _ _ _ _ h]
    · rw [pinAppend_cons_ne _ _ _ _ _ h0]
      by_cases h1 : k' = k0
      · subst h1
        unfold pinningOf
        rw [lookup_cons_self, lookup_cons_self]
      · unfold pinningOf at ih ⊢
        rw [lookup_cons_ne _ _ _ _ h1, lookup_cons_ne _ _ _ _ h1]
        exact ih

theorem pinningOf_pinAppendMany_same (ids : List String) :
    ∀ (p : Pinning) (k : Nat),
      pinningOf (pinAppendMany p k ids) k = pinningOf p k ++ ids := by
  induction ids with
  | nil => intro p k; simp [pinAppendMany]
  | cons s rest ih =>
    intro p k
    have : pinAppendMany p k (s :: rest) = pinAppendMany (pinAppend p k s) k rest := rfl
    rw [this, ih, pinningOf_pinAppend_same]
    simp

theorem pinningOf_pinAppendMany_ne (ids : List String) :
    ∀ (p : Pinning) (k k' : Nat), k' ≠ k →
      pinningOf (pinAppendMany p k ids) k' = pinningOf p k' := by
  induction ids with
  | nil => intro p k k' _; simp [pinAppendMany]
  | cons s rest ih =>
    intro p k k' h
    have : pinAppendMany p k (s :: rest) = pinAppendMany (pinAppend p k s) k rest := rfl
    rw [this, ih _ _ _ h, pinningOf_pinAppend_ne _ _ _ _ h]

theorem pinningOf_foldl_pinAppend_all (vs : List Nat) :
    ∀ (p : Pinning) (s : String) (j : Nat), (∀ v ∈ vs, v = j) →
      pinningOf (vs.foldl (fun p c => pinAppend p c s) p) j =
        pinningOf p j ++ vs.map (fun _ => s) := by
  induction vs with
  | nil => intro p s j _; simp
  | cons v rest ih =>
    intro p s j hall
    have hv : v = j := hall v (by simp)
    subst hv
    have := ih (pinAppend p v s) s v (fun w hw => hall w (by simp [hw]))
    simp only [List.foldl_cons, this, pinningOf_pinAppend_same]
    simp

theorem pinningOf_foldl_pinAppend_ne (vs : List Nat) :
    ∀ (p : Pinning) (s : String) (j : Nat), (∀ v ∈ vs, v ≠ j) →
      pinningOf (vs.foldl (fun p c => pinAppend p c s) p) j = pinningOf p j := by
  induction vs with
  | nil => intro p s j _; rfl
  | cons v rest ih =>
    intro p s j hall
    have := ih (pinAppend p v s) s j (fun w hw => hall w (by simp [hw]))
    simp only [List.foldl_cons, this]
    exact pinningOf_pinAppend_ne _ _ _ _ (Ne.symm (hall v (by simp)))

/-! ## fixedContainers association lemmas -/

theorem listFlat_nil : listFlat [] = [] := rfl

theorem listFlat_cons (k : Int) (vs : List Nat) (rest : List (Int × List Nat)) :
    listFlat ((k, vs) :: rest) = vs.map (fun v => (k, v)) ++ listFlat rest := by
  simp [listFlat]

theorem upsert_cons_same (k : Int) (vs : List Nat) (rest : List (Int × List Nat)) (v : Nat) :
    upsert ((k, vs) :: rest) k v = (k, vs ++ [v]) :: rest := by
  simp [upsert]

theorem upsert_cons_ne (k k' : Int) (vs : List Nat) (rest : List (Int × List Nat)) (v : Nat)
    (h : k' ≠ k) : upsert ((k', vs) :: rest) k v = (k', vs) :: upsert rest k v := by
  simp [upsert, h]

theorem listFlat_upsert (fa : List (Int × List Nat)) (k : Int) (v : Nat) :
    (listFlat (upsert fa k v)).Perm (listFlat fa ++ [(k, v)]) := by
  induction fa with
  | nil => simp [upsert, listFlat]
  | cons kv rest ih =>
    rcases kv with ⟨k', vs⟩
    by_cases h : k' = k
    · subst h
      rw [upsert_cons_same, listFlat_cons, listFlat_cons]
      simp only [List.map_append, List.map_cons, List.map_nil, List.append_assoc,
        List.singleton_append]
      exact List.Perm.append_left _ ((List.perm_append_singleton _ _).symm)
    · rw [upsert_cons_ne _ _ _ _ _ h, listFlat_cons, listFlat_cons, List.append_assoc]
      exact List.Perm.append_left _ ih

theorem listFlat_foldl_upsert (flat : List (Int × Nat)) :
    ∀ fa : List (Int × List Nat),
      (listFlat (flat.foldl (fun fa p => upsert fa p.1 p.2) fa)).Perm (listFlat fa ++ flat) := by
  induction flat with
  | nil => intro fa; simp
  | cons q rest ih =>
    intro fa
    have h2 : (listFlat (upsert fa q.1 q.2) ++ rest).Perm ((listFlat fa ++ [(q.1, q.2)]) ++ rest) :=
      List.Perm.append_right rest (listFlat_upsert fa q.1 q.2)
    have h3 : ((listFlat fa ++ [(q.1, q.2)]) ++ rest) = listFlat fa ++ (q :: rest) := by
      rw [List.append_assoc]
      simp
    simp only [List.foldl_cons]
    exact (ih (upsert fa q.1 q.2)).trans (h3 ▸ h2)

theorem fst_mem_upsert {fa : List (Int × List Nat)} {k : Int} {v : Nat} {k' : Int}
    (h : k' ∈ (upsert fa k v).map Prod.fst) : k' ∈ fa.map Prod.fst ∨ k' = k := by
  induction fa with
  | nil => simpa [upsert] using h
  | cons kv rest ih =>
    rcases kv with ⟨k0, vs⟩
    by_cases h0 : k0 = k
    · subst h0
      rw [upsert_cons_same] at h
      simp only [List.map_cons, List.mem_cons] at h
      rcases h with h | h
      · exact Or.inr h
      · exact Or.inl (by simp only [List.map_cons, List.mem_cons]; exact Or.inr h)
    · rw [upsert_cons_ne _ _ _ _ _ h0] at h
      simp only [List.map_cons, List.mem_cons] at h
      rcases h with h | h
      · exact Or.inl (by simp [h])
      · rcases ih h with h | h
        · exact Or.inl (by simp only [List.map_cons, List.mem_cons]; exact Or.inr h)
        · exact Or.inr h

theorem fst_mem_foldl_upsert (flat : List (Int × Nat)) :
    ∀ (fa : List (Int × List Nat)) (k' : Int),
      k' ∈ ((flat.foldl (fun fa p => upsert fa p.1 p.2) fa)).map Prod.fst →
      k' ∈ fa.map Prod.fst ∨ k' ∈ flat.map Prod.fst := by
  induction flat with
  | nil => intro fa k' h; exact Or.inl h
  | cons q rest ih =>
    intro fa k' h
    rcases ih (upsert fa q.1 q.2) k' h with h | h
    · rcases fst_mem_upsert h with h | h
      · exact Or.inl h
      · exact Or.inr (by simp [h])
    · refine Or.inr ?_
      simp only [List.map_cons, List.mem_cons]
      exact Or.inr h

/-! ## Classification characterization -/

theorem classifyGo_eq (cpus : List Int) :
    ∀ (cs : List Ctr) (i : Nat) (b : List (Nat × Int)) (f : List (Int × List Nat)),
      classifyGo cpus i cs (b, f) =
        (b ++ balListGo cpus i cs,
         (flatFixedGo cpus i cs).foldl (fun fa p => upsert fa p.1 p.2) f) := by
  intro cs
  induction cs with
  | nil => intro i b f; simp [classifyGo, balListGo, flatFixedGo]
  | cons c rest ih =>
    intro i b f
    by_cases hr : c.running
    · cases ha : atoi (effLimitStr cpus c) with
      | some n =>
        simp only [classifyGo, if_pos hr, ha, ih, balListGo, flatFixedGo]
        simp [ha, hr, List.append_assoc]
      | none =>
        simp only [classifyGo, if_pos hr, ha, ih, balListGo, flatFixedGo]
        simp only [ha, hr, if_pos, List.nil_append, List.foldl_append]
        rw [List.foldl_map]
    · simp only [classifyGo, if_neg hr, ih, balListGo, flatFixedGo]
      simp [hr]

theorem classify_eq (cpus : List Int) (ctrs : List Ctr) :
    classify cpus ctrs =
      (balListGo cpus 0 ctrs,
       (flatFixedGo cpus 0 ctrs).foldl (fun fa p => upsert fa p.1 p.2) []) := by
  unfold classify
  rw [classifyGo_eq]
  simp

theorem balListGo_mem_of_get (cpus : List Int) :
    ∀ (cs : List Ctr) (i j : Nat) (c : Ctr) (r : Int),
      cs.get? j = some c → c.running = true → atoi (effLimitStr cpus c) = some r →
      (i + j, goMin r cpus.length) ∈ balListGo cpus i cs := by
  intro cs
  induction cs with
  | nil => intro i j c r h; simp at h
  | cons c0 rest ih =>
    intro i j c r hget hrun ha
    cases j with
    | zero =>
      simp only [List.get?] at hget
      injection hget with hget; subst hget
      simp [balListGo, hrun, ha]
    | succ jj =>
      simp only [List.get?] at hget
      have := ih (i + 1) jj c r hget hrun ha
      have harith : i + 1 + jj = i + (jj + 1) := by omega
      rw [harith] at this
      simp only [balListGo, List.mem_append]
      exact Or.inr this

theorem balListGo_fst_ge (cpus : List Int) :
    ∀ (cs : List Ctr) (i : Nat) (q : Nat × Int), q ∈ balListGo cpus i cs → i ≤ q.1 := by
  intro cs
  induction cs with
  | nil => intro i q h; simp [balListGo] at h
  | cons c rest ih =>
    intro i q h
    simp only [balListGo, List.mem_append] at h
    rcases h with h | h
    · split at h
      · split at h
        · rw [List.mem_singleton] at h
          subst h
          exact le_refl i
        · simp at h
      · simp at h
    · have := ih (i + 1) q h
      omega

theorem balListGo_pairwise (cpus : List Int) :
    ∀ (cs : List Ctr) (i : Nat),
      (balListGo cpus i cs).Pairwise (fun a b => a.1 < b.1) := by
  intro cs
  induction cs with
  | nil => intro i; simp [balListGo]
  | cons c rest ih =>
    intro i
    simp only [balListGo]
    apply List.pairwise_append.mpr
    refine ⟨?_, ih (i + 1), ?_⟩
    · split
      · split <;> simp
      · simp
    · intro a ha b hb
      have hb' := balListGo_fst_ge cpus rest (i + 1) b hb
      split at ha
      · split at ha
        · rw [List.mem_singleton] at ha
          subst ha
          omega
        · simp at ha
      · simp at ha

theorem flatFixedGo_spec (cpus : List Int) :
    ∀ (cs : List Ctr) (i : Nat) (q : Int × Nat), q ∈ flatFixedGo cpus i cs →
      i ≤ q.2 ∧ ∃ c, cs.get? (q.2 - i) = some c ∧ c.running = true ∧
        atoi (effLimitStr cpus c) = none ∧ q.1 ∈ fixedIdsOf cpus (effLimitStr cpus c) := by
  intro cs
  induction cs with
  | nil => intro i q h; simp [flatFixedGo] at h
  | cons c rest ih =>
    intro i q h
    simp only [flatFixedGo, List.mem_append] at h
    rcases h with h | h
    · by_cases hr : c.running
      · rw [if_pos hr] at h
        cases ha : atoi (effLimitStr cpus c) with
        | some n => rw [ha] at h; simp at h
        | none =>
          rw [ha] at h
          rcases List.mem_map.mp h with ⟨id, hid, hq⟩
          subst hq
          exact ⟨le_refl _, c, by simp, hr, ha, hid⟩
      · rw [if_neg hr] at h; simp at h
    · rcases ih (i + 1) q h with ⟨hle, c', hget, hrun, ha, hid⟩
      refine ⟨by omega, c', ?_, hrun, ha, hid⟩
      have : q.2 - i = (q.2 - (i + 1)) + 1 := by omega
      rw [this]
      simpa using hget

theorem flatFixedGo_nil (cpus : List Int) (cs : List Ctr)
    (h : ∀ c ∈ cs, c.running = true → (atoi (effLimitStr cpus c)).isSome) :
    ∀ i, flatFixedGo cpus i cs = [] := by
  induction cs with
  | nil => intro i; rfl
  | cons c rest ih =>
    intro i
    have hrest := ih (fun c' hc' => h c' (by simp [hc']))
    by_cases hr : c.running
    · have := h c (by simp) hr
      cases ha : atoi (effLimitStr cpus c) with
      | none => rw [ha] at this; simp at this
      | some n => simp [flatFixedGo, hr, ha, hrest]
    · simp [flatFixedGo, hr, hrest]

theorem fixedIdsOf_subset (cpus : List Int) (limit : String) :
    ∀ id ∈ fixedIdsOf cpus limit, id ∈ cpus := by
  intro id h
  rcases List.mem_flatMap.mp h with ⟨chunk, _, hid⟩
  unfold chunkFixedIds at hid
  split at hid
  · split at hid
    · split at hid
      · rcases List.mem_filter.mp hid with ⟨_, h2⟩
        simpa using h2
      · simp at hid
    · simp at hid
  · split at hid
    · split at hid
      · rename_i hc
        rw [List.mem_singleton] at hid
        subst hid
        simpa using hc
      · simp at hid
    · simp at hid

theorem chunkFixedIds_eq_filter (cpus : List Int) (chunk : String) :
    chunkFixedIds cpus chunk =
      (chunkReferencedIds chunk).filter (fun i => cpus.contains i) := by
  unfold chunkFixedIds chunkReferencedIds
  split
  · split
    · split
      · rfl
      · rfl
    · rfl
  · split
    · rename_i nr _
      by_cases hm : nr ∈ cpus
      · simp [List.filter, hm]
      · simp [List.filter, hm]
    · rfl

theorem fixedIdsOf_eq_filter (cpus : List Int) (limit : String) :
    fixedIdsOf cpus limit =
      (referencedIdsOf limit).filter (fun i => cpus.contains i) := by
  unfold fixedIdsOf referencedIdsOf
  induction splitChar ',' limit with
  | nil => rfl
  | cons chunk rest ih =>
    simp only [List.flatMap_cons, List.filter_append, ih, chunkFixedIds_eq_filter]

/-! ## Fixed-assignment application lemmas -/

theorem set_get_eq {α : Type} :
    ∀ (l : List α) (i : Nat) (a : α), l.get? i = some a → l.set i a = l := by
  intro l
  induction l with
  | nil => intro i a h; simp at h
  | cons x rest ih =>
    intro i a h
    cases i with
    | zero =>
      simp only [List.get?] at h
      injection h with h; subst h
      rfl
    | succ ii =>
      simp only [List.get?] at h
      simp [List.set, ih ii a h]

theorem bumpAt_map_idStr (l : List CpuCtr) (i : Nat) (n : Nat) :
    (bumpAt l i n).map (fun e => (e.id, e.strId)) = l.map (fun e => (e.id, e.strId)) := by
  unfold bumpAt
  cases hg : l.get? i with
  | none => rfl
  | some e =>
    rw [List.map_set]
    apply set_get_eq
    rw [List.get?_map, hg]
    rfl

theorem bumpAt_length (l : List CpuCtr) (i : Nat) (n : Nat) :
    (bumpAt l i n).length = l.length := by
  unfold bumpAt
  cases hg : l.get? i with
  | none => rfl
  | some e => simp

theorem applyFixed_cons (kv : Int × List Nat) (fa : List (Int × List Nat))
    (u : List CpuCtr) (p : Pinning) :
    applyFixed (kv :: fa) u p =
      match applyFixedOne (u, p) kv with
      | none => none
      | some st => applyFixed fa st.1 st.2 := by
  unfold applyFixed
  cases h : applyFixedOne (u, p) kv <;> simp [List.foldlM, h]

theorem applyFixed_usage (fa : List (Int × List Nat)) :
    ∀ (u : List CpuCtr) (p : Pinning) (u' : List CpuCtr) (p' : Pinning),
      applyFixed fa u p = some (u', p') →
      u'.map (fun e => (e.id, e.strId)) = u.map (fun e => (e.id, e.strId)) := by
  induction fa with
  | nil =>
    intro u p u' p' h
    simp [applyFixed, List.foldlM] at h
    rw [h.1]
  | cons kv rest ih =>
    intro u p u' p' h
    rw [applyFixed_cons] at h
    cases h1 : applyFixedOne (u, p) kv with
    | none => rw [h1] at h; simp at h
    | some st =>
      rw [h1] at h
      simp only at h
      have h2 := ih st.1 st.2 u' p' h
      unfold applyFixedOne at h1
      cases hg : goIndex u kv.1 with
      | none => rw [hg] at h1; simp at h1
      | some e =>
        rw [hg] at h1
        simp only [Option.some_inj] at h1
        rw [h2, ← h1, bumpAt_map_idStr]

theorem applyFixed_pinning_ne (fa : List (Int × List Nat)) :
    ∀ (u : List CpuCtr) (p : Pinning) (u' : List CpuCtr) (p' : Pinning) (j : Nat),
      applyFixed fa u p = some (u', p') →
      (∀ q ∈ listFlat fa, q.2 ≠ j) →
      pinningOf p' j = pinningOf p j := by
  induction fa with
  | nil =>
    intro u p u' p' j h _
    simp [applyFixed, List.foldlM] at h
    rw [h.2]
  | cons kv rest ih =>
    intro u p u' p' j h hne
    rw [applyFixed_cons] at h
    cases h1 : applyFixedOne (u, p) kv with
    | none => rw [h1] at h; simp at h
    | some st =>
      rw [h1] at h
      simp only at h
      have hrest : ∀ q ∈ listFlat rest, q.2 ≠ j := by
        intro q hq
        apply hne q
        rw [show kv = (kv.1, kv.2) from rfl, listFlat_cons]
        exact List.mem_append.mpr (Or.inr hq)
      have h2 := ih st.1 st.2 u' p' j h hrest
      unfold applyFixedOne at h1
      cases hg : goIndex u kv.1 with
      | none => rw [hg] at h1; simp at h1
      | some e =>
        rw [hg] at h1
        simp only [Option.some_inj] at h1
        have hvs : ∀ v ∈ kv.2, v ≠ j := by
          intro v hv
          apply hne (kv.1, v)
          rw [show kv = (kv.1, kv.2) from rfl, listFlat_cons]
          exact List.mem_append.mpr (Or.inl (List.mem_map.mpr ⟨v, hv, rfl⟩))
        rw [h2, ← h1]
        simp only
        exact pinningOf_foldl_pinAppend_ne kv.2 p e.strId j hvs

theorem strIdAt_congr (u u' : List CpuCtr)
    (h : u'.map (fun e => (e.id, e.strId)) = u.map (fun e => (e.id, e.strId))) (k : Int) :
    strIdAt u' k = strIdAt u k := by
  unfold strIdAt goIndex
  split
  · have h1 : (u'.map (fun e => (e.id, e.strId))).get? k.toNat =
        (u.map (fun e => (e.id, e.strId))).get? k.toNat := by rw [h]
    rw [List.get?_map, List.get?_map] at h1
    cases hg' : u'.get? k.toNat with
    | none =>
      rw [hg'] at h1
      cases hg : u.get? k.toNat with
      | none => rfl
      | some b => rw [hg] at h1; simp at h1
    | some a =>
      rw [hg'] at h1
      cases hg : u.get? k.toNat with
      | none => rw [hg] at h1; simp at h1
      | some b =>
        rw [hg] at h1
        simp at h1 ⊢
        exact h1.2
  · rfl

theorem filterMap_congr_mem {α β : Type} (f g : α → Option β) :
    ∀ (l : List α), (∀ a ∈ l, f a = g a) → l.filterMap f = l.filterMap g := by
  intro l
  induction l with
  | nil => intro _; rfl
  | cons a rest ih =>
    intro h
    rw [List.filterMap_cons, List.filterMap_cons, h a (by simp),
      ih (fun b hb => h b (by simp [hb]))]

theorem applyFixed_isSome (fa : List (Int × List Nat)) :
    ∀ (u : List CpuCtr) (p : Pinning),
      (∀ k ∈ fa.map Prod.fst, 0 ≤ k ∧ k.toNat < u.length) →
      (applyFixed fa u p).isSome := by
  induction fa with
  | nil => intro u p _; simp [applyFixed, List.foldlM]
  | cons kv rest ih =>
    intro u p hk
    rcases hk kv.1 (by simp) with ⟨hk0, hk1⟩
    cases hg : u.get? kv.1.toNat with
    | none =>
      rw [List.get?_eq_none] at hg
      omega
    | some e =>
      rw [applyFixed_cons]
      unfold applyFixedOne goIndex
      rw [if_pos hk0, hg]
      simp only
      apply ih
      intro k hkmem
      have := hk k (by simp only [List.map_cons, List.mem_cons]; exact Or.inr hkmem)
      rwa [bumpAt_length]

theorem applyFixed_pinning_single (fa : List (Int × List Nat)) :
    ∀ (u : List CpuCtr) (p : Pinning) (u' : List CpuCtr) (p' : Pinning) (j : Nat),
      applyFixed fa u p = some (u', p') →
      (∀ q ∈ listFlat fa, q.2 = j) →
      pinningOf p' j = pinningOf p j ++ (listFlat fa).filterMap (fun q => strIdAt u q.1) := by
  induction fa with
  | nil =>
    intro u p u' p' j h _
    simp [applyFixed, List.foldlM] at h
    rw [h.2]
    simp [listFlat_nil]
  | cons kv rest ih =>
    intro u p u' p' j h hall
    rw [applyFixed_cons] at h
    cases h1 : applyFixedOne (u, p) kv with
    | none => rw [h1] at h; simp at h
    | some st =>
      rw [h1] at h
      simp only at h
      have hallrest : ∀ q ∈ listFlat rest, q.2 = j := by
        intro q hq
        apply hall q
        rw [show kv = (kv.1, kv.2) from rfl, listFlat_cons]
        exact List.mem_append.mpr (Or.inr hq)
      have hallvs : ∀ v ∈ kv.2, v = j := by
        intro v hv
        have := hall (kv.1, v) (by
          rw [show kv = (kv.1, kv.2) from rfl, listFlat_cons]
          exact List.mem_append.mpr (Or.inl (List.mem_map.mpr ⟨v, hv, rfl⟩)))
        exact this
      have hrec := ih st.1 st.2 u' p' j h hallrest
      unfold applyFixedOne at h1
      cases hg : goIndex u kv.1 with
      | none => rw [hg] at h1; simp at h1
      | some e =>
        rw [hg] at h1
        simp only [Option.some_inj] at h1
        have hmap : st.1.map (fun e => (e.id, e.strId)) = u.map (fun e => (e.id, e.strId)) := by
          rw [← h1]
          exact bumpAt_map_idStr u kv.1.toNat kv.2.length
        have hstrId : ∀ q ∈ listFlat rest, strIdAt st.1 q.1 = strIdAt u q.1 := by
          intro q _
          exact strIdAt_congr u st.1 hmap q.1
        rw [filterMap_congr_mem _ _ _ hstrId] at hrec
        have hp2 : pinningOf st.2 j = pinningOf p j ++ kv.2.map (fun _ => e.strId) := by
          rw [← h1]
          simp only
          exact pinningOf_foldl_pinAppend_all kv.2 p e.strId j hallvs
        rw [hrec, hp2]
        rw [show kv = (kv.1, kv.2) from rfl, listFlat_cons, List.filterMap_append,
          List.append_assoc]
        congr 1
        congr 1
        rw [List.filterMap_map]
        have : ((fun q : Int × Nat => strIdAt u q.1) ∘ fun v : Nat => (kv.1, v)) =
            fun _ : Nat => some e.strId := by
          funext v
          simp [Function.comp, strIdAt, hg]
        rw [this]
        exact List.filterMap_eq_map (fun _ => e.strId) ▸ rfl

/-! ## Usage invariant -/

theorem usageInv_usage0 (cpus : List Int) :
    UsageInv cpus (cpus.map fun id => ⟨id, toString id, 0⟩) := by
  unfold UsageInv
  rw [List.map_map]
  exact List.Perm.refl _

theorem usageInv_of_map_eq {cpus : List Int} {u u' : List CpuCtr}
    (h : u'.map (fun e => (e.id, e.strId)) = u.map (fun e => (e.id, e.strId)))
    (hu : UsageInv cpus u) : UsageInv cpus u' := by
  unfold UsageInv at hu ⊢
  rw [h]
  exact hu

theorem usageInv_length {cpus : List Int} {u : List CpuCtr} (h : UsageInv cpus u) :
    u.length = cpus.length := by
  have := h.length_eq
  simpa using this

theorem usageInv_strId {cpus : List Int} {u : List CpuCtr} (h : UsageInv cpus u) :
    ∀ e ∈ u, e.strId = toString e.id := by
  intro e he
  have hmem : (e.id, e.strId) ∈ cpus.map fun id => (id, toString id) :=
    h.mem_iff.mp (List.mem_map.mpr ⟨e, he, rfl⟩)
  rcases List.mem_map.mp hmem with ⟨id, _, hid⟩
  injection hid with h1 h2
  rw [← h2, ← h1]

theorem usageInv_map_id {cpus : List Int} {u : List CpuCtr} (h : UsageInv cpus u) :
    (u.map CpuCtr.id).Perm cpus := by
  have := h.map Prod.fst
  rw [List.map_map, List.map_map] at this
  have h1 : (Prod.fst ∘ fun e : CpuCtr => (e.id, e.strId)) = CpuCtr.id := rfl
  have h2 : (Prod.fst ∘ fun id : Int => (id, toString id)) = fun x : Int => x := rfl
  rw [h1, h2] at this
  simpa using this

theorem usageInv_perm {cpus : List Int} {u u' : List CpuCtr}
    (hp : u'.Perm u) (h : UsageInv cpus u) : UsageInv cpus u' :=
  (hp.map _).trans h

theorem balanceStep_usageInv {cpus : List Int} {u : List CpuCtr} (p : Pinning) (e : Nat × Int)
    (h : UsageInv cpus u) : UsageInv cpus (balanceStep (u, p) e).1 := by
  unfold balanceStep
  simp only
  have h1 : ((allocate e.2 (sortSortCPUs u)).2.map fun x => (x.id, x.strId)) =
      ((sortSortCPUs u).map fun x => (x.id, x.strId)) := allocate_snd_map_idStr _ _
  exact usageInv_of_map_eq h1 (usageInv_perm (sortSortCPUs_perm u) h)

/-! ## Balanced-phase fold lemmas -/

theorem foldl_balanceStep_pinning_ne :
    ∀ (l : List (Nat × Int)) (u : List CpuCtr) (p : Pinning) (j : Nat),
      (∀ e ∈ l, e.1 ≠ j) →
      pinningOf ((l.foldl balanceStep (u, p)).2) j = pinningOf p j := by
  intro l
  induction l with
  | nil => intro u p j _; rfl
  | cons q rest ih =>
    intro u p j hne
    simp only [List.foldl_cons]
    have h1 : balanceStep (u, p) q = ((balanceStep (u, p) q).1, (balanceStep (u, p) q).2) := rfl
    rw [h1]
    rw [ih _ _ j (fun e he => hne e (by simp [he]))]
    unfold balanceStep
    simp only
    exact pinningOf_pinAppendMany_ne _ _ _ _ (Ne.symm (hne q (by simp)))

theorem foldl_balanceStep_pinning (cpus : List Int) :
    ∀ (l : List (Nat × Int)) (u : List CpuCtr) (p : Pinning) (i : Nat) (n : Int),
      l.Pairwise (fun a b => a.1 < b.1) → (i, n) ∈ l → UsageInv cpus u →
      ∃ u_i, UsageInv cpus u_i ∧
        pinningOf ((l.foldl balanceStep (u, p)).2) i =
          pinningOf p i ++
            ((sortSortCPUs u_i).take (allocCount n u_i.length)).map CpuCtr.strId := by
  intro l
  induction l with
  | nil => intro u p i n _ hmem; simp at hmem
  | cons q rest ih =>
    intro u p i n hpw hmem hinv
    rcases List.pairwise_cons.mp hpw with ⟨hq, hrest⟩
    simp only [List.foldl_cons]
    rcases List.mem_cons.mp hmem with heq | hmem'
    · have hqi : q = (i, n) := heq.symm
      subst hqi
      have hne : ∀ e ∈ rest, e.1 ≠ i := by
        intro e he
        have := hq e he
        simp only at this
        omega
      have h1 : balanceStep (u, p) (i, n) =
          ((balanceStep (u, p) (i, n)).1, (balanceStep (u, p) (i, n)).2) := rfl
      rw [h1, foldl_balanceStep_pinning_ne rest _ _ i hne]
      refine ⟨u, hinv, ?_⟩
      unfold balanceStep
      simp only
      rw [pinningOf_pinAppendMany_same]
      congr 1
      rw [allocate_eq]
      simp only
      congr 2
      rw [(sortSortCPUs_perm u).length_eq]
    · have hqne : q.1 ≠ i := by
        have := hq (i, n) hmem'
        simp only at this
        omega
      have h1 : balanceStep (u, p) q = ((balanceStep (u, p) q).1, (balanceStep (u, p) q).2) := rfl
      rw [h1]
      have hinv' : UsageInv cpus (balanceStep (u, p) q).1 := balanceStep_usageInv p q hinv
      rcases ih (balanceStep (u, p) q).1 (balanceStep (u, p) q).2 i n hrest hmem' hinv' with
        ⟨u_i, hui, heq⟩
      refine ⟨u_i, hui, ?_⟩
      rw [heq]
      congr 1
      unfold balanceStep
      simp only
      exact pinningOf_pinAppendMany_ne _ _ _ _ (Ne.symm hqne)

/-! ## Two-valued counter invariant (load-balanced-only passes) -/

theorem mem_bumpTake {l : List CpuCtr} {k : Nat} {e : CpuCtr}
    (h : e ∈ (l.take k).map bump ++ l.drop k) : ∃ e₀ ∈ l, e = bump e₀ ∨ e = e₀ := by
  rcases List.mem_append.mp h with h | h
  · rcases List.mem_map.mp h with ⟨e₀, he₀, hb⟩
    exact ⟨e₀, List.mem_of_mem_take he₀, Or.inl hb.symm⟩
  · exact ⟨e, List.mem_of_mem_drop h, Or.inr rfl⟩

theorem bumpTake_twoval :
    ∀ (l : List CpuCtr) (k : Nat) (m : Int),
      l.Pairwise (fun x y => x.count ≤ y.count) → TwoVal m l →
      TwoVal m ((l.take k).map bump ++ l.drop k) ∨
        TwoVal (m + 1) ((l.take k).map bump ++ l.drop k) := by
  intro l
  induction l with
  | nil =>
    intro k m _ _
    left
    intro e he
    simp at he
  | cons c rest ih =>
    intro k m hpw h2
    rcases List.pairwise_cons.mp hpw with ⟨hc, hrest⟩
    cases k with
    | zero =>
      left
      simpa using h2
    | succ kk =>
      simp only [List.take_succ_cons, List.map_cons, List.drop_succ_cons, List.cons_append]
      rcases h2 c (by simp) with hcm | hcm
      · have h2rest : TwoVal m rest := fun e he => h2 e (by simp [he])
        rcases ih kk m hrest h2rest with hl | hr
        · left
          intro e he
          rcases List.mem_cons.mp he with rfl | he
          · right; simp [bump, hcm]
          · exact hl e he
        · right
          intro e he
          rcases List.mem_cons.mp he with rfl | he
          · left; simp [bump, hcm]
          · exact hr e he
      · have hrest1 : ∀ e ∈ rest, e.count = m + 1 := by
          intro e he
          rcases h2 e (by simp [he]) with h | h
          · have := hc e he
            omega
          · exact h
        right
        intro e he
        rcases List.mem_cons.mp he with rfl | he
        · right; simp [bump, hcm]
        · rcases mem_bumpTake he with ⟨e₀, he₀, heq | heq⟩
          · subst heq
            right
            simp [bump, hrest1 e₀ he₀]
          · subst heq
            left
            exact hrest1 e he₀

theorem balanceStep_twoval {u : List CpuCtr} (p : Pinning) (e : Nat × Int) {m : Int}
    (h : TwoVal m u) : TwoVal m (balanceStep (u, p) e).1 ∨ TwoVal (m + 1) (balanceStep (u, p) e).1 := by
  unfold balanceStep
  simp only
  rw [allocate_eq]
  simp only
  apply bumpTake_twoval
  · exact sortSortCPUs_sorted u
  · intro x hx
    exact h x ((sortSortCPUs_perm u).subset hx)

theorem foldl_balanceStep_twoval :
    ∀ (l : List (Nat × Int)) (u : List CpuCtr) (p : Pinning) (m : Int),
      TwoVal m u → ∃ m', TwoVal m' ((l.foldl balanceStep (u, p)).1) := by
  intro l
  induction l with
  | nil => intro u p m h; exact ⟨m, h⟩
  | cons q rest ih =>
    intro u p m h
    simp only [List.foldl_cons]
    have h1 : balanceStep (u, p) q = ((balanceStep (u, p) q).1, (balanceStep (u, p) q).2) := rfl
    rw [h1]
    rcases balanceStep_twoval p q h with h2 | h2
    · exact ih _ _ m h2
    · exact ih _ _ (m + 1) h2

/-! ## Core destructuring -/

theorem core_cases (cpus : List Int) (ctrs : List Ctr) (st : List CpuCtr × Pinning)
    (h : deviceTaskBalanceCore cpus ctrs = some st) :
    ∃ up, applyFixed (classify cpus ctrs).2 (cpus.map fun id => ⟨id, toString id, 0⟩) [] = some up ∧
      st = (classify cpus ctrs).1.foldl balanceStep up := by
  simp only [deviceTaskBalanceCore] at h
  cases happ : applyFixed (classify cpus ctrs).2 (cpus.map fun id => ⟨id, toString id, 0⟩) [] with
  | none =>
    rw [happ] at h
    simp at h
  | some up =>
    rw [happ] at h
    simp only [Option.some_inj] at h
    exact ⟨up, rfl, h.symm⟩

theorem goMin_toNat_le (r : Int) (N : Nat) : (goMin r (N : Int)).toNat ≤ N := by
  unfold goMin
  split <;> omega

theorem allocCount_nonneg_eq (r : Int) (N : Nat) (h : 0 ≤ r) :
    allocCount (goMin r (N : Int)) N = (goMin r (N : Int)).toNat := by
  unfold allocCount goMin
  split <;> split <;> omega

theorem allocCount_neg_full (r : Int) (N n : Nat) (h : r < 0) :
    allocCount (goMin r (N : Int)) n = n := by
  have hg : goMin r (N : Int) = r := by
    unfold goMin
    split <;> omega
  rw [hg]
  unfold allocCount
  split <;> omega

theorem idCpus_mem {N : Nat} {k : Int} :
    k ∈ idCpus N ↔ 0 ≤ k ∧ k.toNat < N := by
  unfold idCpus
  rw [List.mem_map]
  constructor
  · rintro ⟨j, hj, rfl⟩
    rw [List.mem_range] at hj
    simp only [Int.ofNat_eq_coe]
    omega
  · rintro ⟨h0, h1⟩
    refine ⟨k.toNat, List.mem_range.mpr h1, ?_⟩
    simp only [Int.ofNat_eq_coe]
    omega

theorem strIdAt_idCpus {N : Nat} {k : Int} (h : k ∈ idCpus N) :
    strIdAt ((idCpus N).map fun id => ⟨id, toString id, 0⟩) k = some (toString k) := by
  rcases idCpus_mem.mp h with ⟨h0, h1⟩
  unfold strIdAt goIndex
  rw [if_pos h0, List.get?_map]
  have hg : (idCpus N).get? k.toNat = some k := by
    unfold idCpus
    rw [List.get?_map]
    have hr : (List.range N).get? k.toNat = some k.toNat := by
      rw [List.get?_eq_getElem?, List.getElem?_range h1]
    rw [hr]
    simp only [Option.map_some', Int.ofNat_eq_coe]
    congr 1
    omega
  rw [hg]
  rfl

/-- Shared core of C1 and C10: in a completed pass, a running container
whose effective limit parses as integer `r` receives exactly the first
`allocCount` entries of the sorted usage slice current at its turn. -/
theorem balancedPinning (cpus : List Int) (ctrs : List Ctr) (st : List CpuCtr × Pinning)
    (i : Nat) (c : Ctr) (r : Int)
    (hget : ctrs.get? i = some c) (hrun : c.running = true)
    (hparse : atoi (effLimitStr cpus c) = some r)
    (hcore : deviceTaskBalanceCore cpus ctrs = some st) :
    ∃ u_i, UsageInv cpus u_i ∧
      pinningOf st.2 i =
        ((sortSortCPUs u_i).take (allocCount (goMin r (cpus.length : Int))
          u_i.length)).map CpuCtr.strId := by
  obtain ⟨up, happ, hst⟩ := core_cases cpus ctrs st hcore
  have hmem : (i, goMin r (cpus.length : Int)) ∈ (classify cpus ctrs).1 := by
    rw [classify_eq]
    simpa using balListGo_mem_of_get cpus ctrs 0 i c r hget hrun hparse
  have hpw : (classify cpus ctrs).1.Pairwise (fun a b => a.1 < b.1) := by
    rw [classify_eq]
    exact balListGo_pairwise cpus ctrs 0
  have hinv : UsageInv cpus up.1 :=
    usageInv_of_map_eq (applyFixed_usage _ _ _ _ _ (by rw [happ])) (usageInv_usage0 cpus)
  have hpin0 : pinningOf up.2 i = [] := by
    have hne : ∀ q ∈ listFlat (classify cpus ctrs).2, q.2 ≠ i := by
      intro q hq hqi
      have hcls2 : (classify cpus ctrs).2 =
          (flatFixedGo cpus 0 ctrs).foldl (fun fa p => upsert fa p.1 p.2) [] := by
        rw [classify_eq]
      rw [hcls2] at hq
      have hq' : q ∈ flatFixedGo cpus 0 ctrs := by
        have hperm := listFlat_foldl_upsert (flatFixedGo cpus 0 ctrs) []
        have := hperm.mem_iff.mp hq
        simpa [listFlat_nil] using this
      rcases flatFixedGo_spec cpus ctrs 0 q hq' with ⟨_, c', hget', _, hnone, _⟩
      rw [hqi] at hget'
      simp only [Nat.sub_zero] at hget'
      rw [hget] at hget'
      injection hget' with hc'
      rw [← hc'] at hnone
      rw [hparse] at hnone
      exact Option.noConfusion hnone
    have := applyFixed_pinning_ne _ _ _ _ _ i (by rw [happ]) hne
    rw [this]
    rfl
  obtain ⟨u_i, hui, heq⟩ := foldl_balanceStep_pinning cpus (classify cpus ctrs).1 up.1 up.2 i
    (goMin r (cpus.length : Int)) hpw hmem hinv
  have hstfold : st.2 = ((classify cpus ctrs).1.foldl balanceStep (up.1, up.2)).2 := by
    rw [hst]
  rw [hstfold, heq, hpin0, List.nil_append]
  exact ⟨u_i, hui, rfl⟩

/-- C1: in a completed rebalance pass over `N ≥ 1` online CPUs, every
running instance whose effective `limits.cpu` parses as a non-negative
integer `r` is assigned exactly `min(r, N)` distinct online CPUs. -/
theorem C1_balanced_count (cpus : List Int) (ctrs : List Ctr) (st : List CpuCtr × Pinning)
    (i : Nat) (c : Ctr) (r : Int)
    (hN : 1 ≤ cpus.length) (hnd : cpus.Nodup)
    (hget : ctrs.get? i = some c) (hrun : c.running = true)
    (hparse : atoi (effLimitStr cpus c) = some r) (hr : 0 ≤ r)
    (hcore : deviceTaskBalanceCore cpus ctrs = some st) :
    ∃ ids : List Int, pinningOf st.2 i = ids.map toString ∧ ids.Nodup ∧
      ids.length = (goMin r (cpus.length : Int)).toNat ∧ ∀ x ∈ ids, x ∈ cpus := by
  obtain ⟨u_i, hui, heq⟩ := balancedPinning cpus ctrs st i c r hget hrun hparse hcore
  rw [heq]
  have hlenui : u_i.length = cpus.length := usageInv_length hui
  have hslen : (sortSortCPUs u_i).length = u_i.length := (sortSortCPUs_perm u_i).length_eq
  have hk : allocCount (goMin r (cpus.length : Int)) u_i.length =
      (goMin r (cpus.length : Int)).toNat := by
    rw [hlenui]
    exact allocCount_nonneg_eq r cpus.length hr
  refine ⟨((sortSortCPUs u_i).take (allocCount (goMin r (cpus.length : Int)) u_i.length)).map
    CpuCtr.id, ?_, ?_, ?_, ?_⟩
  · rw [List.map_map]
    apply List.map_congr_left
    intro e he
    have he' : e ∈ u_i := (sortSortCPUs_perm u_i).subset (List.mem_of_mem_take he)
    exact usageInv_strId hui e he'
  · have hnodupmap : ((sortSortCPUs u_i).map CpuCtr.id).Nodup := by
      have hperm : ((sortSortCPUs u_i).map CpuCtr.id).Perm cpus :=
        ((sortSortCPUs_perm u_i).map CpuCtr.id).trans (usageInv_map_id hui)
      exact hperm.nodup_iff.mpr hnd
    have hsub : List.Sublist
        (((sortSortCPUs u_i).take (allocCount (goMin r (cpus.length : Int))
          u_i.length)).map CpuCtr.id)
        ((sortSortCPUs u_i).map CpuCtr.id) :=
      (List.take_sublist _ _).map CpuCtr.id
    exact List.Nodup.sublist hsub hnodupmap
  · rw [List.length_map, List.length_take, hk, hslen, hlenui]
    have := goMin_toNat_le r cpus.length
    omega
  · intro x hx
    rcases List.mem_map.mp hx with ⟨e, he, hex⟩
    have he' : e ∈ u_i := (sortSortCPUs_perm u_i).subset (List.mem_of_mem_take he)
    have : e.id ∈ u_i.map CpuCtr.id := List.mem_map.mpr ⟨e, he', rfl⟩
    rw [← hex]
    exact (usageInv_map_id hui).subset this

/-- C1 witness: a 4-CPU host with one running instance requesting 2 CPUs. -/
theorem C1_balanced_count_witness :
    deviceTaskBalanceCore [0, 1, 2, 3] [⟨"a", some "2", true⟩] =
      some ([⟨0, "0", 1⟩, ⟨1, "1", 1⟩, ⟨2, "2", 0⟩, ⟨3, "3", 0⟩], [(0, ["0", "1"])]) ∧
    ∃ ids : List Int,
      pinningOf (([⟨0, "0", 1⟩, ⟨1, "1", 1⟩, ⟨2, "2", 0⟩, ⟨3, "3", 0⟩],
        ([(0, ["0", "1"])] : Pinning)) : List CpuCtr × Pinning).2 0 = ids.map toString ∧
      ids.Nodup ∧ ids.length = (goMin 2 (([0, 1, 2, 3] : List Int).length : Int)).toNat ∧
      ∀ x ∈ ids, x ∈ ([0, 1, 2, 3] : List Int) :=
  ⟨by decide,
   C1_balanced_count [0, 1, 2, 3] [⟨"a", some "2", true⟩]
     ([⟨0, "0", 1⟩, ⟨1, "1", 1⟩, ⟨2, "2", 0⟩, ⟨3, "3", 0⟩], [(0, ["0", "1"])])
     0 ⟨"a", some "2", true⟩ 2 (by decide) (by decide) rfl rfl (by decide) (by decide)
     (by decide)⟩

/-- C2: the claim that every fixed pin naming a currently-online CPU is
honored fails on the code: `usage[cpu]` indexes the usage slice by CPU id
as a position.  With online CPUs `{0, 2}` (cpu1 offline) and one running
instance pinned `2-2`, the index 2 exceeds the 2-entry usage slice and the
pass panics (modelled as `none`) instead of pinning the instance to CPU 2. -/
theorem C2_fixed_pin_crash :
    deviceTaskBalanceCore [0, 2] [⟨"a", some "2-2", true⟩] = none := by decide

/-- C3 counterexample: on an 11-CPU host (sysfs enumeration order is
lexicographic: cpu0, cpu1, cpu10, cpu2, ...) a single instance holding all
CPUs gets the `sort.Strings` (lexicographic) value, not the numerically
ascending one. -/
theorem C3_lexicographic_counterexample :
    balanceOutputs [0, 1, 10, 2, 3, 4, 5, 6, 7, 8, 9] [⟨"a", none, true⟩] =
      some [(0, "0,1,10,2,3,4,5,6,7,8,9")] ∧
    "0,1,10,2,3,4,5,6,7,8,9" ≠ "0,1,2,3,4,5,6,7,8,9,10" :=
  ⟨by decide, by decide⟩

/-- C3 (amended): the value written for every instance that received at
least one CPU is its CPU-id string list arranged in nondecreasing
lexicographic (string) order and comma-joined. -/
theorem C3_sorted_join (cpus : List Int) (ctrs : List Ctr) (outs : List (Nat × String))
    (i : Nat) (v : String)
    (h1 : balanceOutputs cpus ctrs = some outs) (h2 : (i, v) ∈ outs) :
    ∃ (st : List CpuCtr × Pinning) (assigned l : List String),
      deviceTaskBalanceCore cpus ctrs = some st ∧ (i, assigned) ∈ st.2 ∧
      l.Perm assigned ∧ l.Pairwise (· ≤ ·) ∧ v = String.intercalate "," l := by
  unfold balanceOutputs at h1
  cases hcore : deviceTaskBalanceCore cpus ctrs with
  | none => rw [hcore] at h1; simp at h1
  | some st =>
    rw [hcore] at h1
    simp only [Option.map_some', Option.some_inj] at h1
    rw [← h1] at h2
    rcases List.mem_map.mp h2 with ⟨kv, hkv, hkveq⟩
    injection hkveq with hkv1 hkv2
    refine ⟨st, kv.2, sortStringsGo kv.2, rfl, ?_, sortStringsGo_perm kv.2,
      sortStringsGo_sorted kv.2, hkv2.symm⟩
    rw [← hkv1]
    simpa using hkv

/-- C3 witness: instantiation of the amended statement. -/
theorem C3_sorted_join_witness :
    balanceOutputs [0, 1, 2, 3] [⟨"a", some "2", true⟩] = some [(0, "0,1")] ∧
    ∃ (st : List CpuCtr × Pinning) (assigned l : List String),
      deviceTaskBalanceCore [0, 1, 2, 3] [⟨"a", some "2", true⟩] = some st ∧
      (0, assigned) ∈ st.2 ∧ l.Perm assigned ∧ l.Pairwise (· ≤ ·) ∧
      "0,1" = String.intercalate "," l :=
  ⟨by decide,
   C3_sorted_join [0, 1, 2, 3] [⟨"a", some "2", true⟩] [(0, "0,1")] 0 "0,1"
     (by decide) (by decide)⟩

/-- C4 counterexample: on the 11-CPU host (lexicographic enumeration) a
single instance requesting 3 CPUs receives CPUs 0, 1 and 10 — ties between
the equally-loaded CPUs are broken by the slice's enumeration order, not by
ascending CPU id (which would give 0, 1, 2). -/
theorem C4_tie_order_counterexample :
    balanceOutputs [0, 1, 10, 2, 3, 4, 5, 6, 7, 8, 9] [⟨"a", some "3", true⟩] =
      some [(0, "0,1,10")] ∧
    "0,1,10" ≠ "0,1,2" :=
  ⟨by decide, by decide⟩

/-- C4 (amended): before each balanced instance's allocation the usage
slice is re-sorted into nondecreasing usage-count order (a permutation of
the current counters, so it reflects prior instances' consumption), and
the instance takes exactly the first `min(count, N)` entries of that
sorted slice — least-loaded first, with ties in the order the sort leaves
them, not by ascending CPU id. -/
theorem C4_least_loaded_take (u : List CpuCtr) (p : Pinning) (i : Nat) (n : Int) :
    (sortSortCPUs u).Pairwise (fun a b => a.count ≤ b.count) ∧
    (sortSortCPUs u).Perm u ∧
    pinningOf (balanceStep (u, p) (i, n)).2 i =
      pinningOf p i ++ ((sortSortCPUs u).take (allocCount n u.length)).map CpuCtr.strId := by
  refine ⟨sortSortCPUs_sorted u, sortSortCPUs_perm u, ?_⟩
  unfold balanceStep
  simp only
  rw [pinningOf_pinAppendMany_same, allocate_eq]
  simp only
  rw [(sortSortCPUs_perm u).length_eq]

/-- C5: after a pass whose running instances are all load-balanced (every
running instance's effective limit parses as an integer), any two usage
counters differ by at most 1. -/
theorem C5_balanced_spread (cpus : List Int) (ctrs : List Ctr) (st : List CpuCtr × Pinning)
    (hall : ∀ c ∈ ctrs, c.running = true → (atoi (effLimitStr cpus c)).isSome)
    (hcore : deviceTaskBalanceCore cpus ctrs = some st) :
    ∀ e1 ∈ st.1, ∀ e2 ∈ st.1, |e1.count - e2.count| ≤ 1 := by
  obtain ⟨up, happ, hst⟩ := core_cases cpus ctrs st hcore
  have hflat : flatFixedGo cpus 0 ctrs = [] := flatFixedGo_nil cpus ctrs hall 0
  have hcls2 : (classify cpus ctrs).2 = [] := by
    rw [classify_eq]
    simp [hflat]
  rw [hcls2] at happ
  have hup : up = (cpus.map fun id => ⟨id, toString id, 0⟩, []) := by
    have : applyFixed [] (cpus.map fun id => ⟨id, toString id, 0⟩) [] =
        some (cpus.map fun id => ⟨id, toString id, 0⟩, []) := by
      simp [applyFixed, List.foldlM]
    rw [this] at happ
    injection happ with happ
    exact happ.symm
  have h0 : TwoVal 0 (cpus.map fun id => ⟨id, toString id, 0⟩) := by
    intro e he
    rcases List.mem_map.mp he with ⟨id, _, hid⟩
    left
    rw [← hid]
  obtain ⟨m', hm'⟩ : ∃ m', TwoVal m' st.1 := by
    rw [hst, hup]
    exact foldl_balanceStep_twoval (classify cpus ctrs).1 _ [] 0 h0
  intro e1 h1 e2 h2
  rcases hm' e1 h1 with h | h <;> rcases hm' e2 h2 with h' | h' <;>
    rw [h, h'] <;> simp

/-- C5 witness: two balanced instances (2 and 3 CPUs) on a 4-CPU host. -/
theorem C5_balanced_spread_witness :
    deviceTaskBalanceCore [0, 1, 2, 3] [⟨"a", some "2", true⟩, ⟨"b", some "3", true⟩] =
      some ([⟨2, "2", 1⟩, ⟨3, "3", 1⟩, ⟨0, "0", 2⟩, ⟨1, "1", 1⟩],
        [(0, ["0", "1"]), (1, ["2", "3", "0"])]) ∧
    ∀ e1 ∈ ([⟨2, "2", 1⟩, ⟨3, "3", 1⟩, ⟨0, "0", 2⟩, ⟨1, "1", 1⟩] : List CpuCtr),
      ∀ e2 ∈ ([⟨2, "2", 1⟩, ⟨3, "3", 1⟩, ⟨0, "0", 2⟩, ⟨1, "1", 1⟩] : List CpuCtr),
        |e1.count - e2.count| ≤ 1 :=
  ⟨by decide,
   C5_balanced_spread [0, 1, 2, 3] [⟨"a", some "2", true⟩, ⟨"b", some "3", true⟩]
     ([⟨2, "2", 1⟩, ⟨3, "3", 1⟩, ⟨0, "0", 2⟩, ⟨1, "1", 1⟩],
       [(0, ["0", "1"]), (1, ["2", "3", "0"])])
     (by decide) (by decide)⟩

/-- C10: a running instance whose limit parses as a negative integer is
assigned every online CPU (the allocation loop's only early exit is
`count == 0`, which a negative count never reaches, so the entire usage
slice is consumed and the write contains all online CPU ids). -/
theorem C10_negative_limit_all_cpus (cpus : List Int) (ctrs : List Ctr)
    (st : List CpuCtr × Pinning) (i : Nat) (c : Ctr) (r : Int)
    (hget : ctrs.get? i = some c) (hrun : c.running = true)
    (hparse : atoi (effLimitStr cpus c) = some r) (hneg : r < 0)
    (hcore : deviceTaskBalanceCore cpus ctrs = some st) :
    ∃ ids : List Int, pinningOf st.2 i = ids.map toString ∧ ids.Perm cpus := by
  obtain ⟨u_i, hui, heq⟩ := balancedPinning cpus ctrs st i c r hget hrun hparse hcore
  rw [heq]
  have hk : allocCount (goMin r (cpus.length : Int)) u_i.length = u_i.length :=
    allocCount_neg_full r cpus.length u_i.length hneg
  have hslen : (sortSortCPUs u_i).length = u_i.length := (sortSortCPUs_perm u_i).length_eq
  have htake : (sortSortCPUs u_i).take (allocCount (goMin r (cpus.length : Int)) u_i.length) =
      sortSortCPUs u_i := by
    rw [hk, ← hslen]
    exact List.take_length _
  rw [htake]
  refine ⟨(sortSortCPUs u_i).map CpuCtr.id, ?_, ?_⟩
  · rw [List.map_map]
    apply List.map_congr_left
    intro e he
    exact usageInv_strId hui e ((sortSortCPUs_perm u_i).subset he)
  · exact ((sortSortCPUs_perm u_i).map CpuCtr.id).trans (usageInv_map_id hui)

/-- C10 witness: an instance with `limits.cpu = "-1"` on a 3-CPU host. -/
theorem C10_negative_limit_all_cpus_witness :
    deviceTaskBalanceCore [0, 1, 2] [⟨"a", some "-1", true⟩] =
      some ([⟨0, "0", 1⟩, ⟨1, "1", 1⟩, ⟨2, "2", 1⟩], [(0, ["0", "1", "2"])]) ∧
    ∃ ids : List Int,
      pinningOf (([⟨0, "0", 1⟩, ⟨1, "1", 1⟩, ⟨2, "2", 1⟩],
        ([(0, ["0", "1", "2"])] : Pinning)) : List CpuCtr × Pinning).2 0 = ids.map toString ∧
      ids.Perm [0, 1, 2] :=
  ⟨by decide,
   C10_negative_limit_all_cpus [0, 1, 2] [⟨"a", some "-1", true⟩]
     ([⟨0, "0", 1⟩, ⟨1, "1", 1⟩, ⟨2, "2", 1⟩], [(0, ["0", "1", "2"])])
     0 ⟨"a", some "-1", true⟩ (-1) rfl rfl (by decide) (by decide) (by decide)⟩

theorem idCpus_length (N : Nat) : (idCpus N).length = N := by
  simp [idCpus]

/-- C6: on the standard topology (online CPUs `0..N-1`), a pinning
expression never aborts the pass: the pass completes and the instance is
assigned exactly the referenced CPU ids that are online, every offline,
nonexistent or malformed entry being dropped. -/
theorem C6_pinning_tolerates_invalid (N : Nat) (c : Ctr)
    (hrun : c.running = true)
    (hparse : atoi (effLimitStr (idCpus N) c) = none) :
    ∃ st, deviceTaskBalanceCore (idCpus N) [c] = some st ∧
      (pinningOf st.2 0).Perm
        (((referencedIdsOf (effLimitStr (idCpus N) c)).filter
            (fun i => (idCpus N).contains i)).map toString) := by
  have hbal : balListGo (idCpus N) 0 [c] = [] := by
    simp [balListGo, hrun, hparse]
  have hflat : flatFixedGo (idCpus N) 0 [c] =
      (fixedIdsOf (idCpus N) (effLimitStr (idCpus N) c)).map (fun id => (id, 0)) := by
    simp [flatFixedGo, hrun, hparse]
  have hcls := classify_eq (idCpus N) [c]
  have hcls1 : (classify (idCpus N) [c]).1 = [] := by
    rw [hcls]
    exact hbal
  have hcls2 : (classify (idCpus N) [c]).2 =
      (flatFixedGo (idCpus N) 0 [c]).foldl (fun fa p => upsert fa p.1 p.2) [] := by
    rw [hcls]
  have hkeys : ∀ k ∈ ((classify (idCpus N) [c]).2).map Prod.fst,
      0 ≤ k ∧ k.toNat < ((idCpus N).map fun id => (⟨id, toString id, 0⟩ : CpuCtr)).length := by
    intro k hk
    rw [hcls2] at hk
    rcases fst_mem_foldl_upsert _ [] k hk with h | h
    · simp at h
    · rw [hflat, List.map_map] at h
      rcases List.mem_map.mp h with ⟨id, hid, hkid⟩
      have hin : id ∈ idCpus N :=
        fixedIdsOf_subset (idCpus N) (effLimitStr (idCpus N) c) id hid
      rcases idCpus_mem.mp hin with ⟨h0, h1⟩
      have hkid' : k = id := by simpa using hkid.symm
      subst hkid'
      rw [List.length_map, idCpus_length]
      exact ⟨h0, h1⟩
  obtain ⟨up, hup⟩ := Option.isSome_iff_exists.mp
    (applyFixed_isSome ((classify (idCpus N) [c]).2) _ [] hkeys)
  have hcore : deviceTaskBalanceCore (idCpus N) [c] = some up := by
    simp only [deviceTaskBalanceCore]
    rw [hup, hcls1]
    rfl
  refine ⟨up, hcore, ?_⟩
  have hall0 : ∀ q ∈ listFlat (classify (idCpus N) [c]).2, q.2 = 0 := by
    intro q hq
    rw [hcls2] at hq
    have hqflat : q ∈ flatFixedGo (idCpus N) 0 [c] := by
      have hperm := listFlat_foldl_upsert (flatFixedGo (idCpus N) 0 [c]) []
      have := hperm.mem_iff.mp hq
      simpa [listFlat_nil] using this
    rw [hflat] at hqflat
    rcases List.mem_map.mp hqflat with ⟨id, _, hqid⟩
    rw [← hqid]
  have hps := applyFixed_pinning_single ((classify (idCpus N) [c]).2) _ [] up.1 up.2 0
    (by rw [hup]) hall0
  rw [pinningOf_nil, List.nil_append] at hps
  rw [hps]
  have hperm1 : (listFlat (classify (idCpus N) [c]).2).Perm (flatFixedGo (idCpus N) 0 [c]) := by
    rw [hcls2]
    have := listFlat_foldl_upsert (flatFixedGo (idCpus N) 0 [c]) []
    simpa [listFlat_nil] using this
  have hperm2 := hperm1.filterMap
    (fun q => strIdAt ((idCpus N).map fun id => ⟨id, toString id, 0⟩) q.1)
  have hrhs : (flatFixedGo (idCpus N) 0 [c]).filterMap
      (fun q => strIdAt ((idCpus N).map fun id => ⟨id, toString id, 0⟩) q.1) =
      (fixedIdsOf (idCpus N) (effLimitStr (idCpus N) c)).map toString := by
    rw [hflat, List.filterMap_map]
    have hcongr : ∀ id ∈ fixedIdsOf (idCpus N) (effLimitStr (idCpus N) c),
        ((fun q : Int × Nat => strIdAt ((idCpus N).map fun id => ⟨id, toString id, 0⟩) q.1) ∘
          fun id => (id, 0)) id = (some ∘ toString) id := by
      intro id hid
      have hin : id ∈ idCpus N :=
        fixedIdsOf_subset (idCpus N) (effLimitStr (idCpus N) c) id hid
      simpa [Function.comp] using strIdAt_idCpus hin
    rw [filterMap_congr_mem _ _ _ hcongr, List.filterMap_eq_map]
  rw [← fixedIdsOf_eq_filter]
  rw [← hrhs]
  exact hperm2

/-- C6 witness: expression `1-2,9,x` on a 4-CPU host — CPU 9 does not
exist and `x` is malformed; CPUs 1 and 2 are still assigned. -/
theorem C6_pinning_tolerates_invalid_witness :
    (atoi (effLimitStr (idCpus 4) ⟨"a", some "1-2,9,x", true⟩) = none) ∧
    ∃ st, deviceTaskBalanceCore (idCpus 4) [⟨"a", some "1-2,9,x", true⟩] = some st ∧
      (pinningOf st.2 0).Perm
        (((referencedIdsOf (effLimitStr (idCpus 4) ⟨"a", some "1-2,9,x", true⟩)).filter
            (fun i => (idCpus 4).contains i)).map toString) :=
  ⟨by decide, C6_pinning_tolerates_invalid 4 ⟨"a", some "1-2,9,x", true⟩ rfl (by decide)⟩

/-- C7: every directive `deviceCgroupInfo` produces has the form
`<c|b> <major>:<minor> <mode-string>` with a mode-string determined by the
read/write bits of the parsed octal mode (one of `m`, `mr`, `mw`, `mrw`;
an unset mode defaults to `0660`, giving `mrw`); in particular the device
`{type: unix-char, major: 10, minor: 200, mode: 0440}` yields exactly
`"c 10:200 mr"`. -/
theorem C7_cgroup_directive :
    (∀ (g : String → Option (Int × Int)) (dev : Device) (s : String),
      deviceCgroupInfo g dev = some s →
      ∃ (ma mi m : Int) (ms : String),
        devModeOct (dev "mode") = some m ∧
        ms = ("m" ++ (if modeHasRead m then "r" else "")) ++
          (if modeHasWrite m then "w" else "") ∧
        (ms = "m" ∨ ms = "mr" ∨ ms = "mw" ∨ ms = "mrw") ∧
        (dev "mode" = "" → ms = "mrw") ∧
        s = ((((if dev "type" = "unix-char" then "c" else "b") ++ " ") ++ toString ma) ++ ":" ++
          toString mi) ++ " " ++ ms) ∧
    deviceCgroupInfo (fun _ => none)
      (fun k => if k = "type" then "unix-char" else if k = "major" then "10"
        else if k = "minor" then "200" else if k = "mode" then "0440" else "") =
      some "c 10:200 mr" := by
  constructor
  · intro g dev s h
    simp only [deviceCgroupInfo] at h
    split at h
    · exact absurd h (by simp)
    · rename_i t ht
      split at h
      · exact absurd h (by simp)
      · rename_i ma mi hmm
        split at h
        · exact absurd h (by simp)
        · rename_i ms hms
          unfold devModeString at hms
          cases hmo : devModeOct (dev "mode") with
          | none => rw [hmo] at hms; exact absurd hms (by simp)
          | some m =>
            rw [hmo] at hms
            simp only [Option.map_some', Option.some_inj] at hms
            refine ⟨ma, mi, m, ms, rfl, hms.symm, ?_, ?_, ?_⟩
            · rw [← hms]
              cases hr : modeHasRead m <;> cases hw : modeHasWrite m <;> simp
            · intro hempty
              rw [hempty] at hmo
              unfold devModeOct at hmo
              rw [if_pos rfl] at hmo
              injection hmo with hmo
              rw [← hms, ← hmo]
              decide
            · have ht' : t = if dev "type" = "unix-char" then "c" else "b" := by
                by_cases h1 : dev "type" = "unix-char"
                · rw [if_pos h1] at ht ⊢
                  injection ht with ht
                  exact ht.symm
                · rw [if_neg h1] at ht ⊢
                  by_cases h2 : dev "type" = "unix-block"
                  · rw [if_pos h2] at ht
                    injection ht with ht
                    exact ht.symm
                  · rw [if_neg h2] at ht
                    exact absurd ht (by simp)
              injection h with h
              rw [← h, ht']
  · decide

/-- C7 witness: the general part applied to the concrete device. -/
theorem C7_cgroup_directive_witness :
    ∃ (ma mi m : Int) (ms : String),
      devModeOct ((fun k => if k = "type" then "unix-char" else if k = "major" then "10"
        else if k = "minor" then "200" else if k = "mode" then "0440" else "" : Device)
          "mode") = some m ∧
      ms = ("m" ++ (if modeHasRead m then "r" else "")) ++
        (if modeHasWrite m then "w" else "") ∧
      (ms = "m" ∨ ms = "mr" ∨ ms = "mw" ∨ ms = "mrw") ∧
      (((fun k => if k = "type" then "unix-char" else if k = "major" then "10"
        else if k = "minor" then "200" else if k = "mode" then "0440" else "" : Device)
          "mode") = "" → ms = "mrw") ∧
      "c 10:200 mr" =
        ((((if ((fun k => if k = "type" then "unix-char" else if k = "major" then "10"
          else if k = "minor" then "200" else if k = "mode" then "0440" else "" : Device)
            "type") = "unix-char" then "c" else "b") ++ " ") ++ toString ma) ++ ":" ++
          toString mi) ++ " " ++ ms :=
  C7_cgroup_directive.1 (fun _ => none)
    (fun k => if k = "type" then "unix-char" else if k = "major" then "10"
      else if k = "minor" then "200" else if k = "mode" then "0440" else "")
    "c 10:200 mr" (by decide)

/-- C8: `validDeviceConfig` rejects the `type` key for every device type
and rejects every key outside the type's fixed whitelist; `path` is
rejected for `nic` but accepted for `disk`. -/
theorem C8_validate_whitelist :
    (∀ t v, validDeviceConfig t "type" v = false) ∧
    (∀ t k v, k ∉ deviceWhitelist t → validDeviceConfig t k v = false) ∧
    validDeviceConfig "nic" "path" "/x" = false ∧
    validDeviceConfig "disk" "path" "/x" = true := by
  refine ⟨?_, ?_, by decide, by decide⟩
  · intro t v
    simp [validDeviceConfig]
  · intro t k v hk
    unfold validDeviceConfig
    unfold deviceWhitelist at hk
    split_ifs <;> simp_all

/-- C8 witness: an unknown key is rejected for `disk`. -/
theorem C8_validate_whitelist_witness :
    ("x" ∉ deviceWhitelist "disk") ∧ validDeviceConfig "disk" "x" "v" = false :=
  ⟨by decide, C8_validate_whitelist.2.1 "disk" "x" "v" (by decide)⟩

theorem nameFill_name (env : NicEnv) (d : Device) :
    (nameFill env d) "name" = if d "name" = "" then env.nextNic else d "name" := by
  unfold nameFill
  split
  · simp
  · rfl

theorem applyNic_finish (env : NicEnv) (d : Device) (tr0 : List NicCmd) (dev hw : String)
    (dd : Device) (tr : List NicCmd) (r : Bool)
    (hsetup : setupNic env d = finishNic env tr0 dev hw dd)
    (happ : applyNicAddLive env d = (tr, r))
    (hfail : env.run (NicCmd.ipLinkSetAddr dev hw) = false ∨
             env.run (NicCmd.ipLinkSetUp dev) = false ∨
             env.run (NicCmd.attachInterface dev (dd "name")) = false) :
    r = false ∧ NicCmd.ipLinkDel dev ∈ tr := by
  unfold applyNicAddLive at happ
  rw [hsetup] at happ
  simp only [finishNic] at happ
  cases haddr : env.run (NicCmd.ipLinkSetAddr dev hw) with
  | false =>
    simp only [haddr, Bool.false_eq_true, not_false_eq_true, if_true] at happ
    injection happ with htr hr
    subst htr; subst hr
    exact ⟨rfl, by simp⟩
  | true =>
    simp only [haddr, not_true_eq_false, if_false] at happ
    cases hup : env.run (NicCmd.ipLinkSetUp dev) with
    | false =>
      simp only [hup, Bool.false_eq_true, not_false_eq_true, if_true] at happ
      injection happ with htr hr
      subst htr; subst hr
      exact ⟨rfl, by simp⟩
    | true =>
      simp only [hup, not_true_eq_false, if_false] at happ
      cases hat : env.run (NicCmd.attachInterface dev (dd "name")) with
      | false =>
        simp only [hat, Bool.false_eq_true, not_false_eq_true, if_true] at happ
        injection happ with htr hr
        subst htr; subst hr
        exact ⟨rfl, by simp⟩
      | true =>
        rcases hfail with hf | hf | hf
        · rw [haddr] at hf; exact absurd hf (by simp)
        · rw [hup] at hf; exact absurd hf (by simp)
        · rw [hat] at hf; exact absurd hf (by simp)

theorem applyNic_early (env : NicEnv) (d : Device) (tr : List NicCmd) (r : Bool)
    (hs : setupNic env d = ([], none))
    (happ : applyNicAddLive env d = (tr, r)) : tr = [] := by
  unfold applyNicAddLive at happ
  rw [hs] at happ
  have h2 : (([], false) : List NicCmd × Bool) = (tr, r) := happ
  injection h2 with htr hr
  exact htr.symm

/-- C9: in the live addition path for a nic, if the host-side link was
created (its creation command is in the trace and succeeded) and any
subsequent step — setting the MAC address, bringing the link up, or
attaching it to the container — fails, then the addition reports failure
and the trace ends up containing `ip link del` for that link: the link is
not left behind. -/
theorem C9_nic_rollback (env : NicEnv) (d : Device) (tr : List NicCmd) (r : Bool)
    (L : String) (cc : NicCmd) (hw : String)
    (happ : applyNicAddLive env d = (tr, r))
    (hlink : createdLinkOf env d = some L)
    (hcmd : createCmdOf env d = some cc)
    (hintr : cc ∈ tr)
    (hcreate : env.run cc = true)
    (hhw : resolvedHwOf env d = some hw)
    (hfail : env.run (NicCmd.ipLinkSetAddr L hw) = false ∨
             env.run (NicCmd.ipLinkSetUp L) = false ∨
             env.run (NicCmd.attachInterface L
               (if d "name" = "" then env.nextNic else d "name")) = false) :
    r = false ∧ NicCmd.ipLinkDel L ∈ tr := by
  by_cases hb : (["bridged", "p2p"].contains (d "nictype")) = true
  · have hL : L = env.n2 := by
      unfold createdLinkOf at hlink
      rw [if_pos hb] at hlink
      injection hlink with h
      exact h.symm
    have hcc : cc = NicCmd.ipLinkAddVeth env.n1 env.n2 := by
      unfold createCmdOf at hcmd
      rw [if_pos hb] at hcmd
      injection hcmd with h
      exact h.symm
    subst hL; subst hcc
    have hali : d "nictype" = "bridged" ∨ d "nictype" = "p2p" := by simpa using hb
    have hne : ¬ (d "nictype" = "") := by rcases hali with h | h <;> simp [h]
    have hbig : (["bridged", "physical", "p2p", "macvlan"].contains (d "nictype")) = true := by
      rcases hali with h | h <;> simp [h]
    have hnb : ¬ (d "nictype" = "bridge") := by rcases hali with h | h <;> simp [h]
    by_cases hpc :
        (["bridged", "physical", "macvlan"].contains (d "nictype")) = true ∧ d "parent" = ""
    · have hs : setupNic env d = ([], none) := by
        unfold setupNic
        rw [if_neg hne, if_neg (not_not_intro hbig), if_pos hpc]
      have htr := applyNic_early env d tr r hs happ
      subst htr
      exact absurd hintr (by simp)
    · by_cases htx : env.configHwaddr = "" ∧ hw ≠ d "hwaddr" ∧ ¬ env.txOk
      · have hs : setupNic env d = ([], none) := by
          simp only [setupNic, hhw]
          rw [if_neg hne, if_neg (not_not_intro hbig), if_neg hpc, if_pos htx]
        have htr := applyNic_early env d tr r hs happ
        subst htr
        exact absurd hintr (by simp)
      · have hs : setupNic env d =
            finishNic env [NicCmd.ipLinkAddVeth env.n1 env.n2] env.n2 hw (nameFill env d) := by
          simp only [setupNic, hhw]
          rw [if_neg hne, if_neg (not_not_intro hbig), if_neg hpc, if_neg htx, if_pos hb,
            if_neg (not_not_intro hcreate), if_neg hnb]
        refine applyNic_finish env d _ env.n2 hw (nameFill env d) tr r hs happ ?_
        rw [nameFill_name]
        exact hfail
  · have hm : d "nictype" = "macvlan" := by
      by_contra h
      unfold createdLinkOf at hlink
      rw [if_neg hb, if_neg h] at hlink
      exact absurd hlink (by simp)
    have hL : L = env.n1 := by
      unfold createdLinkOf at hlink
      rw [if_neg hb, if_pos hm] at hlink
      injection hlink with h
      exact h.symm
    have hcc : cc = NicCmd.ipLinkAddMacvlan env.n1 (d "parent") := by
      unfold createCmdOf at hcmd
      rw [if_neg hb, if_pos hm] at hcmd
      injection hcmd with h
      exact h.symm
    subst hL; subst hcc
    have hne : ¬ (d "nictype" = "") := by simp [hm]
    have hbig : (["bridged", "physical", "p2p", "macvlan"].contains (d "nictype")) = true := by
      simp [hm]
    have hnp : ¬ (d "nictype" = "physical") := by simp [hm]
    by_cases hpc :
        (["bridged", "physical", "macvlan"].contains (d "nictype")) = true ∧ d "parent" = ""
    · have hs : setupNic env d = ([], none) := by
        unfold setupNic
        rw [if_neg hne, if_neg (not_not_intro hbig), if_pos hpc]
      have htr := applyNic_early env d tr r hs happ
      subst htr
      exact absurd hintr (by simp)
    · by_cases htx : env.configHwaddr = "" ∧ hw ≠ d "hwaddr" ∧ ¬ env.txOk
      · have hs : setupNic env d = ([], none) := by
          simp only [setupNic, hhw]
          rw [if_neg hne, if_neg (not_not_intro hbig), if_neg hpc, if_pos htx]
        have htr := applyNic_early env d tr r hs happ
        subst htr
        exact absurd hintr (by simp)
      · have hs : setupNic env d =
            finishNic env [NicCmd.ipLinkAddMacvlan env.n1 (d "parent")] env.n1 hw
              (nameFill env d) := by
          simp only [setupNic, hhw]
          rw [if_neg hne, if_neg (not_not_intro hbig), if_neg hpc, if_neg htx, if_neg hb,
            if_neg hnp, if_pos hm, if_neg (not_not_intro hcreate)]
        refine applyNic_finish env d _ env.n1 hw (nameFill env d) tr r hs happ ?_
        rw [nameFill_name]
        exact hfail

/-- C9 witness: a bridged nic whose `ip link set up` step fails; the
addition fails and the veth peer `vb` is deleted. -/
theorem C9_nic_rollback_witness :
    false = false ∧ NicCmd.ipLinkDel "vb" ∈
      [NicCmd.ipLinkAddVeth "va" "vb", NicCmd.ipLinkSetAddr "vb" "00:16:3e:aa:bb:cc",
       NicCmd.ipLinkSetUp "vb", NicCmd.ipLinkDel "vb"] :=
  C9_nic_rollback nicEnvW nicDevW
    [NicCmd.ipLinkAddVeth "va" "vb", NicCmd.ipLinkSetAddr "vb" "00:16:3e:aa:bb:cc",
     NicCmd.ipLinkSetUp "vb", NicCmd.ipLinkDel "vb"] false "vb"
    (NicCmd.ipLinkAddVeth "va" "vb") "00:16:3e:aa:bb:cc"
    (by decide) (by decide) (by decide) (by decide) (by decide) (by decide)
    (Or.inr (Or.inl (by decide)))

end DevicesGo
